import Mathlib

/-!
Verification of the dolly manifest compiler: a shallow embedding of the
parser/AST (src/parser/pp.rs), the resource adapter (src/resources/) and the
dependency-graph engine (src/lib.rs), together with proofs of the spec's
claims about them.  The pest grammar file (res/puppet.pest) is not part of
the sources, so the lexical grammar is modelled from the spec; everything
else is translated directly from the Rust source.
-/

namespace Dolly

/-- Outcome of a Rust function that may return a value, return an error, or
panic.  Panics (for example via the unreachable! macro) are modelled as a
distinct constructor so that non-totality at the public interface is
observable. -/
inductive RustResult (ε α : Type) where
  | ok (a : α)
  | err (e : ε)
  | panicked (msg : String)
  deriving Repr, DecidableEq

/-- Segment of an interpolated string, from enum StringContent in pp.rs.
The source constructor Variable is rendered here as var because variable is
a Lean keyword. -/
inductive StringContent where
  | literal (s : String)
  | var (name : String)
  deriving Repr, DecidableEq

/-- Interpolated string, from struct PuppetString(Vec of StringContent). -/
structure PuppetString where
  segs : List StringContent
  deriving Repr, DecidableEq

/-- Display for StringContent: a variable renders as a dollar sign followed
by the name in braces. -/
def StringContent.render : StringContent → String
  | .literal s => s
  | .var v => "$\x7b" ++ v ++ "\x7d"

/-- Display for PuppetString: concatenation of the rendered segments. -/
def PuppetString.render (p : PuppetString) : String :=
  String.join (p.segs.map StringContent.render)

/-- Relation operator, from enum RelationOp in pp.rs. -/
inductive RelationOp where
  | provide
  | require
  | notify
  | subscribe
  deriving Repr, DecidableEq

/-- Display impl for RelationOp. -/
def RelationOp.render : RelationOp → String
  | .provide => "->"
  | .require => "<-"
  | .notify => "~>"
  | .subscribe => "<~"

/-- FromStr for RelationOp (pp.rs lines 36-51): the four arrow strings map
to operators; anything else hits the unreachable! macro, i.e. panics, even
though the signature declares an error type. -/
def RelationOp.fromStr (op : String) : RustResult String RelationOp :=
  if op = "->" then .ok .provide
  else if op = "<-" then .ok .require
  else if op = "~>" then .ok .notify
  else if op = "<~" then .ok .subscribe
  else .panicked ("RelationOp:from_str() should never get an unknown \x27arrow\x27 str: "
      ++ op ++ ". Check the parser.")

/-- Resource reference, from struct ResourceRef in pp.rs. -/
structure ResourceRef where
  rtype : String
  title : PuppetString
  deriving Repr, DecidableEq

/-- Identity key of a reference (ResourceRef::id): the string Type[title]. -/
def ResourceRef.id (r : ResourceRef) : String :=
  r.rtype ++ "[" ++ r.title.render ++ "]"

/-- Attribute of a resource declaration, from struct Attribute in pp.rs. -/
structure Attribute where
  name : String
  value : PuppetString
  deriving Repr, DecidableEq

/-- Expression of a manifest, from enum PuppetExpr in pp.rs.  The relation
fields from and to are rendered rfrom and rto because from is a Lean
keyword. -/
inductive PuppetExpr where
  | resource (rtype : String) (title : PuppetString) (attributes : List Attribute)
  | relation (rfrom : List ResourceRef) (rto : List ResourceRef) (op : RelationOp)
  deriving Repr, DecidableEq

/-- Parsed manifest, from struct Manifest(Vec of PuppetExpr). -/
structure Manifest where
  exprs : List PuppetExpr
  deriving Repr, DecidableEq

/-- Manifest::resources(): the resource-declaration expressions, in order. -/
def Manifest.resources (m : Manifest) : List PuppetExpr :=
  m.exprs.filter fun e => match e with
    | .resource .. => true
    | _ => false

/-- Manifest::relations(): the relation expressions, in order. -/
def Manifest.relations (m : Manifest) : List PuppetExpr :=
  m.exprs.filter fun e => match e with
    | .relation .. => true
    | _ => false

/-- Display impl for PuppetExpr (pp.rs lines 389-430).  Resource titles and
reference titles are printed inside single quotes; attribute values are
printed bare. -/
def PuppetExpr.render : PuppetExpr → String
  | .resource rtype title attributes =>
      rtype ++ " \x7b\n  \x27" ++ title.render ++ "\x27:\n"
        ++ String.join (attributes.map fun a =>
            "    " ++ a.name ++ " => " ++ a.value.render ++ ",\n")
        ++ "\x7d"
  | .relation rfrom rto op =>
      let part := fun (r : ResourceRef) => r.rtype ++ "[\x27" ++ r.title.render ++ "\x27]"
      "[" ++ String.intercalate ", " (rfrom.map part) ++ "] " ++ op.render
        ++ " [" ++ String.intercalate ", " (rto.map part) ++ "]"

/-- Display impl for Manifest: each expression followed by a newline. -/
def Manifest.render (m : Manifest) : String :=
  String.join (m.exprs.map fun e => e.render ++ "\n")

/-- Modelled from the spec: the type-name canonicalization invariant of
section 3, character-wise: upper-case the character at the start and after
every double colon, keep everything else (equivalent to splitting on the
double colon, upper-casing each segment's first character and rejoining).
The boolean flag records whether the next character starts a segment. -/
def canonChars : List Char → Bool → List Char
  | [], _ => []
  | ':' :: ':' :: rest, _ => ':' :: ':' :: canonChars rest true
  | c :: rest, true => c.toUpper :: canonChars rest false
  | c :: rest, false => c :: canonChars rest false

/-- Modelled from the spec: full canonicalization of a possibly namespaced
type name, per the section-3 invariant.  The repository's own tests assert
this canonical form. -/
def specCanonicalType (s : String) : String :=
  String.mk (canonChars s.data true)

/-! Graph engine: edge kind, resource nodes, the adapter, and the
dependency graph of src/lib.rs.  The type below is the edge-kind enum named
Relation in src/resources/resource.rs. -/

/-- Edge kind, from enum Relation in resources/resource.rs. -/
inductive Relation where
  | provide
  | notify
  deriving Repr, DecidableEq

/-- Display impl for the edge kind. -/
def Relation.render : Relation → String
  | .provide => "->"
  | .notify => "~>"

/-- Closed union standing for Box of dyn Resource: the four concrete
resource kinds registered in src/resources/. -/
inductive ResourceNode where
  | file (title : String)
  | exec (title : String)
  | service (title : String)
  | fooBar (title : String)
  deriving Repr, DecidableEq

/-- The rtype() method of each impl Resource (file.rs, exec.rs, service.rs,
foo_bar.rs).  The strings are exactly the literals returned by the source:
File and Foo::Bar are capitalized, exec and service are not. -/
def ResourceNode.rtype : ResourceNode → String
  | .file _ => "File"
  | .exec _ => "exec"
  | .service _ => "service"
  | .fooBar _ => "Foo::Bar"

/-- The title() method of each impl Resource. -/
def ResourceNode.title : ResourceNode → String
  | .file t => t
  | .exec t => t
  | .service t => t
  | .fooBar t => t

/-- Resource::id() default method: rtype followed by the title in square
brackets. -/
def ResourceNode.id (r : ResourceNode) : String :=
  r.rtype ++ "[" ++ r.title ++ "]"

/-- Errors of plan construction (the anyhow errors of src/lib.rs and
src/resources/mod.rs), made structural so they are inspectable. -/
inductive PlanError where
  | unknownRtype (rtype : String)
  | exprNotResource
  | exprNotRelation
  | notAcyclicAtStart
  | unknownResource (id : String)
  | cycleEdge (rfrom : ResourceRef) (rel : Relation) (rto : ResourceRef)
  deriving Repr, DecidableEq

/-- TryFrom of a PuppetExpr reference for Box of dyn Resource
(resources/mod.rs lines 19-43): dispatch on the stored type-name string;
only the four exact strings File, Exec, Service and Foo::Bar are known. -/
def tryFromExpr : PuppetExpr → Except PlanError ResourceNode
  | .resource rtype title _ =>
      match rtype with
      | "File" => .ok (.file title.render)
      | "Exec" => .ok (.exec title.render)
      | "Service" => .ok (.service title.render)
      | "Foo::Bar" => .ok (.fooBar title.render)
      | other => .error (.unknownRtype other)
  | .relation .. => .error (.exprNotResource)

/-- Directed edge of the dependency graph: source index, target index and
edge kind. -/
abbrev GEdge := Nat × Nat × Relation

/-- Step relation of an edge list: u steps to v when some edge goes from u
to v. -/
def EStep (es : List GEdge) (u v : Nat) : Prop :=
  ∃ k, (u, v, k) ∈ es

/-- Boolean form of the step relation. -/
def estepB (es : List GEdge) (u v : Nat) : Bool :=
  es.any fun e => e.1 = u ∧ e.2.1 = v

/-- One closure step over a single edge: append the target when the source
is already collected and the target is not. -/
def expandStep (acc : List Nat) (e : GEdge) : List Nat :=
  if acc.contains e.1 ∧ ¬ acc.contains e.2.1 then acc ++ [e.2.1] else acc

/-- One round of forward closure: append the target of every edge whose
source is already in the accumulated list and whose target is not yet
present.  Used to decide reachability, modelling the admission check of
petgraph's Acyclic wrapper. -/
def expandOnce (es : List GEdge) (acc : List Nat) : List Nat :=
  es.foldl expandStep acc

/-- Forward-reachable set of a vertex: iterate expandOnce often enough to
reach the fixed point. -/
def closure (es : List GEdge) (v : Nat) : List Nat :=
  (expandOnce es)^[es.length + 1] [v]

/-- Decidable reachability along edges (reflexive-transitive). -/
def reachableB (es : List GEdge) (u v : Nat) : Bool :=
  (closure es u).contains v

/-- Admission check of petgraph's Acyclic::try_add_edge: the edge u to v is
rejected exactly when v already reaches u (which covers self loops), since
inserting it would close a cycle. -/
def tryAddEdgeRaw (es : List GEdge) (u v : Nat) (k : Relation) : Option (List GEdge) :=
  if reachableB es v u then none else some (es ++ [(u, v, k)])

/-- The acyclicity invariant: no vertex reaches itself through a nonempty
edge path. -/
def AcyclicEdges (es : List GEdge) : Prop :=
  ∀ w, ¬ Relation.TransGen (EStep es) w w

/-- Executable cycle check used to model Acyclic::try_from_graph. -/
def hasCycleB (es : List GEdge) : Bool :=
  es.any fun e => reachableB es e.2.1 e.1

/-- Lookup table from composite resource ids to node indices, modelling the
HashMap of src/lib.rs. -/
abbrev NodeMap := List (String × Nat)

/-- HashMap::insert - replaces the binding if the key is present, otherwise
appends it. -/
def mapInsert (m : NodeMap) (k : String) (v : Nat) : NodeMap :=
  if m.any (fun p => p.1 = k) then m.map (fun p => if p.1 = k then (k, v) else p)
  else m ++ [(k, v)]

/-- HashMap::get. -/
def mapGet (m : NodeMap) (k : String) : Option Nat :=
  (m.find? fun p => p.1 = k).map (·.2)

/-- One edge insertion of try_add_edges_from_relation (lib.rs lines
106-120 without the lookups): the petgraph admission check composed with
the map_err that renders the offending endpoint pair.  A rejected edge
yields cycleEdge naming both endpoints. -/
def tryAddEdge (es : List GEdge) (f t : ResourceRef) (i j : Nat) (rel : Relation) :
    Except PlanError (List GEdge) :=
  match tryAddEdgeRaw es i j rel with
  | none => .error (.cycleEdge f rel t)
  | some es' => .ok es'

/-- Inner loop of try_add_edges_from_relation: one fixed from-reference
crossed against every to-reference. -/
def addEdgesInner (map : NodeMap) (f : ResourceRef) (rel : Relation) :
    List GEdge → List ResourceRef → Except PlanError (List GEdge)
  | es, [] => .ok es
  | es, t :: ts =>
      match mapGet map f.id with
      | none => .error (.unknownResource f.id)
      | some i =>
          match mapGet map t.id with
          | none => .error (.unknownResource t.id)
          | some j =>
              match tryAddEdge es f t i j rel with
              | .error e => .error e
              | .ok es' => addEdgesInner map f rel es' ts

/-- try_add_edges_from_relation (lib.rs lines 99-123): the Cartesian
product of the from-references against the to-references, inserting each
edge through the acyclicity admission check. -/
def tryAddEdgesFromRelation (map : NodeMap) (rel : Relation) :
    List GEdge → List ResourceRef → List ResourceRef → Except PlanError (List GEdge)
  | es, [], _ => .ok es
  | es, f :: fs, ts =>
      match addEdgesInner map f rel es ts with
      | .error e => .error e
      | .ok es' => tryAddEdgesFromRelation map rel es' fs ts

/-- add_relations (lib.rs lines 75-97): operator dispatch; Require and
Subscribe swap from and to and reuse the Provide and Notify edge kinds. -/
def addRelations (map : NodeMap) (es : List GEdge) : PuppetExpr → Except PlanError (List GEdge)
  | .resource .. => .error .exprNotRelation
  | .relation rfrom rto op =>
      match op with
      | .provide => tryAddEdgesFromRelation map .provide es rfrom rto
      | .require => tryAddEdgesFromRelation map .provide es rto rfrom
      | .notify => tryAddEdgesFromRelation map .notify es rfrom rto
      | .subscribe => tryAddEdgesFromRelation map .notify es rto rfrom

/-- The dependency graph: node weights in insertion order plus typed
edges over node indices. -/
structure Graph where
  nodes : List ResourceNode
  edges : List GEdge
  deriving Repr, DecidableEq

/-- The compiled plan, from struct Plan(Checked) in src/lib.rs. -/
structure Plan where
  graph : Graph
  deriving Repr, DecidableEq

/-- First loop of parse_puppet_manifest: construct a node per resource
declaration, record its index under its composite id. -/
def addResources : List ResourceNode → NodeMap → List PuppetExpr →
    Except PlanError (List ResourceNode × NodeMap)
  | nodes, map, [] => .ok (nodes, map)
  | nodes, map, e :: rest =>
      match tryFromExpr e with
      | .error err => .error err
      | .ok node =>
          addResources (nodes ++ [node]) (mapInsert map node.id nodes.length) rest

/-- Second loop of parse_puppet_manifest: insert the edges of every
relation expression. -/
def addAllRelations (map : NodeMap) : List GEdge → List PuppetExpr →
    Except PlanError (List GEdge)
  | es, [] => .ok es
  | es, e :: rest =>
      match addRelations map es e with
      | .error err => .error err
      | .ok es' => addAllRelations map es' rest

/-- parse_puppet_manifest (lib.rs lines 55-73): build the nodes, wrap the
graph in the acyclicity guard, then insert all relation edges; any error
aborts with no plan. -/
def parsePuppetManifest (m : Manifest) : Except PlanError Plan :=
  match addResources [] [] m.resources with
  | .error err => .error err
  | .ok (nodes, map) =>
      if hasCycleB [] then .error .notAcyclicAtStart
      else
        match addAllRelations map [] m.relations with
        | .error err => .error err
        | .ok es => .ok ⟨⟨nodes, es⟩⟩

/-- True when v has no incoming edge from the remaining vertex set. -/
def noIncoming (es : List GEdge) (remaining : List Nat) (v : Nat) : Bool :=
  ¬ remaining.any fun u => estepB es u v

/-- Kahn-style topological sort: repeatedly emit the first remaining vertex
with no incoming edge from the remaining set.  Models petgraph's toposort
as used by Plan::sorted; fuel is the number of remaining vertices. -/
def topoSortAux (es : List GEdge) : Nat → List Nat → Except Unit (List Nat)
  | _, [] => .ok []
  | 0, _ :: _ => .error ()
  | fuel + 1, remaining =>
      match remaining.find? (noIncoming es remaining) with
      | none => .error ()
      | some m =>
          match topoSortAux es fuel (remaining.erase m) with
          | .error e => .error e
          | .ok l => .ok (m :: l)

/-- Plan::sorted (lib.rs lines 38-40): topological order of all node
indices, or the not-acyclic error. -/
def Plan.sorted (p : Plan) : Except String (List Nat) :=
  match topoSortAux p.graph.edges p.graph.nodes.length (List.range p.graph.nodes.length) with
  | .ok l => .ok l
  | .error _ => .error "Plan is not acyclic"

/-! Parse-tree level: the shapes of the pest pairs consumed by
Manifest::from_str.  The grammar file res/puppet.pest is not among the
sources; these shapes follow how pp.rs traverses the pairs, and the
character-level grammar further below is modelled from the spec. -/

/-- Piece of a double-quoted string as produced by the grammar: a plain
literal run or a variable placeholder. -/
inductive RawPiece where
  | plain (s : String)
  | var (name : String)
  deriving Repr, DecidableEq

/-- Quoted-string parse node.  For the single-quoted form the matched text
including both quote characters is kept (pest's as_str does), since
parse_quoted_string trims the quotes itself. -/
inductive RawQuoted where
  | single (tok : String)
  | double (pieces : List RawPiece)
  deriving Repr, DecidableEq

/-- The apostrophe character. -/
def quoteChar : Char := Char.ofNat 39

/-- str::trim_matches with an apostrophe pattern: drop every leading and
trailing apostrophe. -/
def trimApostrophes (s : String) : String :=
  String.mk ((((s.data.dropWhile (· = quoteChar)).reverse.dropWhile (· = quoteChar)).reverse))

/-- Rust str::to_lowercase, character-wise (all inputs here are ASCII). -/
def lowerString (s : String) : String :=
  String.mk (s.data.map Char.toLower)

/-- parse_quoted_string (pp.rs lines 432-476): a single-quoted token
becomes one quote-trimmed literal segment; a double-quoted token maps its
pieces one to one. -/
def parseQuotedString : RawQuoted → PuppetString
  | .single tok => ⟨[.literal (trimApostrophes tok)]⟩
  | .double pieces => ⟨pieces.map fun p => match p with
      | .plain s => .literal s
      | .var n => .var n⟩

/-- A ref_arg parse node: a lone resource reference or a bracketed list of
references; each reference is a type-name string plus a quoted title. -/
inductive RawRefArg where
  | single (rtype : String) (title : RawQuoted)
  | list (refs : List (String × RawQuoted))
  deriving Repr, DecidableEq

/-- Item of a relation chain, in source order: a ref_arg or a rel_op
token. -/
inductive RelItem where
  | refArg (a : RawRefArg)
  | relOp (op : String)
  deriving Repr, DecidableEq

/-- Top-level statement parse node. -/
inductive RawStmt where
  | resource (rtype : String) (title : RawQuoted) (attrs : Option (List (String × RawQuoted)))
  | relation (items : List RelItem)
  deriving Repr, DecidableEq

/-- Errors of Manifest::from_str, made structural. -/
inductive ManifestError where
  | syntaxErr
  | undefinedReference (r : ResourceRef)
  | opErr (e : String)
  deriving Repr, DecidableEq

/-- Attribute collection of from_str (pp.rs lines 200-243): the
accumulator variables are declared once per attributes node and a single
Attribute is pushed after the loop over the attribute children, so the push
records the name and value of the last attribute seen (or the empty
initial values if the node had no children). -/
def buildAttributes : Option (List (String × RawQuoted)) → List Attribute
  | none => []
  | some l =>
      let nv := l.foldl (fun _ p => (p.1, parseQuotedString p.2)) ("", PuppetString.mk [])
      [⟨nv.1, nv.2⟩]

/-- Conversion of one reference parse node as done inside the relation arm
of from_str: the type name is lowercased and the title parsed. -/
def refOfRaw (p : String × RawQuoted) : ResourceRef :=
  ⟨lowerString p.1, parseQuotedString p.2⟩

/-- One step of the relation-chain loop of from_str (pp.rs lines 260-342):
a lone reference is pushed onto the current group, a reference list
replaces it, and an operator flushes the nonempty current group together
with the operator text. -/
def chainStep (st : List (List ResourceRef × String) × List ResourceRef) (it : RelItem) :
    List (List ResourceRef × String) × List ResourceRef :=
  match it with
  | .refArg (.single rt q) => (st.1, st.2 ++ [⟨lowerString rt, parseQuotedString q⟩])
  | .refArg (.list refs) => (st.1, refs.map refOfRaw)
  | .relOp op => if st.2.isEmpty then st else (st.1 ++ [(st.2, op)], [])

/-- The relation_parts list built by the chain loop, with the final group
appended under a dummy empty operator (pp.rs lines 344-347). -/
def chainParts (items : List RelItem) : List (List ResourceRef × String) :=
  let st := items.foldl chainStep ([], [])
  if st.2.isEmpty then st.1 else st.1 ++ [(st.2, "")]

/-- Emission of one Relation expression per consecutive pair of
relation_parts (pp.rs lines 349-360); the operator text is parsed through
RelationOp::from_str, whose panic propagates. -/
def emitRelations : List (List ResourceRef × String) → RustResult ManifestError (List PuppetExpr)
  | [] => .ok []
  | [_] => .ok []
  | (f, op) :: (t, o2) :: rest =>
      if op = "" then emitRelations ((t, o2) :: rest)
      else
        match RelationOp.fromStr op with
        | .panicked m => .panicked m
        | .err e => .err (.opErr e)
        | .ok o =>
            match emitRelations ((t, o2) :: rest) with
            | .panicked m => .panicked m
            | .err e => .err e
            | .ok rels => .ok (.relation f t o :: rels)

/-- One step of the main statement loop of from_str: a resource statement
lowercases its type name, records its reference in the declared set and
appends a Resource expression; a relation statement appends the expanded
chain. -/
def buildStep (st : List PuppetExpr × List ResourceRef) (s : RawStmt) :
    RustResult ManifestError (List PuppetExpr × List ResourceRef) :=
  match s with
  | .resource rt title attrs =>
      let tval := parseQuotedString title
      let r : ResourceRef := ⟨lowerString rt, tval⟩
      let res' := if st.2.contains r then st.2 else st.2 ++ [r]
      .ok (st.1 ++ [.resource (lowerString rt) tval (buildAttributes attrs)], res')
  | .relation items =>
      match emitRelations (chainParts items) with
      | .panicked m => .panicked m
      | .err e => .err e
      | .ok rels => .ok (st.1 ++ rels, st.2)

/-- The main statement loop of from_str over all parsed statements. -/
def buildStmts : List RawStmt → (List PuppetExpr × List ResourceRef) →
    RustResult ManifestError (List PuppetExpr × List ResourceRef)
  | [], st => .ok st
  | s :: rest, st =>
      match buildStep st s with
      | .panicked m => .panicked m
      | .err e => .err e
      | .ok st' => buildStmts rest st'

/-- Second pass of from_str (pp.rs lines 368-383): scan the relation
expressions in source order and return the first reference, sides scanned
from then to, that is absent from the declared set. -/
def findUndefined (declared : List ResourceRef) : List PuppetExpr → Option ResourceRef
  | [] => none
  | .resource .. :: rest => findUndefined declared rest
  | .relation f t _ :: rest =>
      match (f ++ t).find? (fun r => ¬ declared.contains r) with
      | some r => some r
      | none => findUndefined declared rest

/-- Manifest::from_str after grammar parsing: build the expressions and the
declared set, then validate every relation reference. -/
def Manifest.fromStmts (stmts : List RawStmt) : RustResult ManifestError Manifest :=
  match buildStmts stmts ([], []) with
  | .panicked m => .panicked m
  | .err e => .err e
  | .ok (exprs, declared) =>
      match findUndefined declared exprs with
      | some r => .err (.undefinedReference r)
      | none => .ok ⟨exprs⟩

/-! Character-level grammar.  Modelled from the spec: the grammar file
res/puppet.pest is not under the sources, so the lexical rules below follow
the external-interface grammar of spec sections 4.1 and 6 (resource
declarations with optional attribute lists, relation chains over reference
arguments, single- and double-quoted strings with variable placeholders,
whitespace insensitivity, reference type names with capitalized segments). -/

/-- The double-quote character. -/
def dquoteChar : Char := Char.ofNat 34

/-- The dollar character. -/
def dollarChar : Char := Char.ofNat 36

/-- The opening-brace character. -/
def lbraceChar : Char := Char.ofNat 123

/-- The closing-brace character. -/
def rbraceChar : Char := Char.ofNat 125

/-- The opening-bracket character. -/
def lbrackChar : Char := Char.ofNat 91

/-- The closing-bracket character. -/
def rbrackChar : Char := Char.ofNat 93

/-- Whitespace recognized between tokens. -/
def isWsChar (c : Char) : Bool :=
  c = ' ' ∨ c = '\n' ∨ c = '\t' ∨ c = '\r'

/-- Skip inter-token whitespace. -/
def skipWs (cs : List Char) : List Char :=
  cs.dropWhile isWsChar

/-- Identifier continuation characters. -/
def isIdentChar (c : Char) : Bool :=
  c.isAlphanum ∨ c = '_'

/-- Modelled from the spec: an identifier is a letter followed by letters,
digits or underscores. -/
def parseIdent (cs : List Char) : Option (String × List Char) :=
  match cs with
  | [] => none
  | c :: rest =>
      if c.isAlpha then
        some (String.mk (c :: rest.takeWhile isIdentChar), rest.dropWhile isIdentChar)
      else none

/-- Remaining double-colon-separated segments of a type name. -/
def parseTypeRest (fuel : Nat) (acc : String) (cs : List Char) : Option (String × List Char) :=
  match fuel with
  | 0 => some (acc, cs)
  | fuel + 1 =>
      match cs with
      | ':' :: ':' :: rest =>
          match parseIdent rest with
          | none => none
          | some (seg, rest') => parseTypeRest fuel (acc ++ "::" ++ seg) rest'
      | _ => some (acc, cs)

/-- Modelled from the spec: a type name is one or more identifier segments
joined by double colons; the matched text is returned verbatim. -/
def parseTypeName (cs : List Char) : Option (String × List Char) :=
  match parseIdent cs with
  | none => none
  | some (seg, rest) => parseTypeRest rest.length seg rest

/-- Character-wise check that every double-colon-separated segment starts
with an upper-case letter; the flag records whether the next character
starts a segment. -/
def ucSegChars : List Char → Bool → Bool
  | [], atStart => ¬ atStart
  | ':' :: ':' :: rest, _ => ucSegChars rest true
  | c :: rest, true => c.isUpper && ucSegChars rest false
  | _ :: rest, false => ucSegChars rest false

/-- A reference type name must capitalize the first character of every
segment (the repository test suite rejects lowercase reference types at
parse time). -/
def isUcType (s : String) : Bool :=
  match s.data with
  | [] => false
  | cs => ucSegChars cs true

/-- Modelled from the spec: a single-quoted string literal, taken verbatim
up to the closing quote; the token keeps both quote characters. -/
def parseSingleQuoted (cs : List Char) : Option (RawQuoted × List Char) :=
  match cs with
  | c :: rest =>
      if c = quoteChar then
        match rest.dropWhile (fun d => ¬ d = quoteChar) with
        | c' :: r2 =>
            if c' = quoteChar then
              some (.single (String.mk (quoteChar :: rest.takeWhile (fun d => ¬ d = quoteChar)
                    ++ [quoteChar])), r2)
            else none
        | [] => none
      else none
  | [] => none

/-- True when the next characters open a variable placeholder. -/
def startsVar (cs : List Char) : Bool :=
  match cs with
  | c :: b :: _ => c = dollarChar ∧ b = lbraceChar
  | _ => false

/-- Maximal literal run inside a double-quoted string: stops at the closing
quote or at a dollar-brace variable opener; any other character, including
a bare dollar, is literal. -/
def takePlainRun (fuel : Nat) (cs : List Char) (acc : List Char) : List Char × List Char :=
  match fuel with
  | 0 => (acc, cs)
  | fuel + 1 =>
      match cs with
      | [] => (acc, [])
      | c :: rest =>
          if c = dquoteChar then (acc, c :: rest)
          else if startsVar (c :: rest) then (acc, c :: rest)
          else takePlainRun fuel rest (acc ++ [c])

/-- Pieces of a double-quoted string after the opening quote, up to and
including the closing quote. -/
def parseDqPieces (fuel : Nat) (cs : List Char) (acc : List RawPiece) :
    Option (List RawPiece × List Char) :=
  match fuel with
  | 0 => none
  | fuel + 1 =>
      match cs with
      | [] => none
      | c :: rest =>
          if c = dquoteChar then some (acc, rest)
          else if startsVar (c :: rest) then
            match rest with
            | _ :: r2 =>
                match parseIdent r2 with
                | none => none
                | some (name, r3) =>
                    match r3 with
                    | b :: r4 => if b = rbraceChar then
                        parseDqPieces fuel r4 (acc ++ [.var name]) else none
                    | [] => none
            | [] => none
          else
            match takePlainRun (fuel + 1) (c :: rest) [] with
            | (run, cs') => parseDqPieces fuel cs' (acc ++ [.plain (String.mk run)])

/-- Modelled from the spec: a double-quoted string literal decomposed into
literal runs and variable placeholders. -/
def parseDoubleQuoted (cs : List Char) : Option (RawQuoted × List Char) :=
  match cs with
  | c :: rest =>
      if c = dquoteChar then
        match parseDqPieces (rest.length + 1) rest [] with
        | none => none
        | some (pieces, rest') => some (.double pieces, rest')
      else none
  | [] => none

/-- A quoted string in either form. -/
def parseQuotedTok (cs : List Char) : Option (RawQuoted × List Char) :=
  match cs with
  | c :: _ =>
      if c = quoteChar then parseSingleQuoted cs
      else if c = dquoteChar then parseDoubleQuoted cs
      else none
  | [] => none

/-- Bracketed title of a resource reference, after its type name. -/
def parseRefTail (cs : List Char) : Option (RawQuoted × List Char) :=
  match cs with
  | c :: rest =>
      if c = lbrackChar then
        match parseQuotedTok (skipWs rest) with
        | none => none
        | some (q, r2) =>
            match skipWs r2 with
            | d :: r3 => if d = rbrackChar then some (q, r3) else none
            | [] => none
      else none
  | [] => none

/-- One resource reference: a capitalized type name and a bracketed quoted
title. -/
def parseOneRef (cs : List Char) : Option ((String × RawQuoted) × List Char) :=
  match parseTypeName cs with
  | none => none
  | some (rt, r1) =>
      if isUcType rt then
        match parseRefTail (skipWs r1) with
        | none => none
        | some (q, r2) => some ((rt, q), r2)
      else none

/-- Items of a bracketed reference list after the opening bracket. -/
def parseRefListItems (fuel : Nat) (cs : List Char)
    (acc : List (String × RawQuoted)) : Option (List (String × RawQuoted) × List Char) :=
  match fuel with
  | 0 => none
  | fuel + 1 =>
      match parseOneRef (skipWs cs) with
      | none => none
      | some (r, r1) =>
          match skipWs r1 with
          | c :: r2 =>
              if c = ',' then parseRefListItems fuel r2 (acc ++ [r])
              else if c = rbrackChar then some (acc ++ [r], r2)
              else none
          | [] => none

/-- A reference argument: a lone reference or a bracketed list. -/
def parseRefArg (cs : List Char) : Option (RawRefArg × List Char) :=
  match cs with
  | c :: rest =>
      if c = lbrackChar then
        match parseRefListItems (rest.length + 1) rest [] with
        | none => none
        | some (items, r1) => some (.list items, r1)
      else
        match parseOneRef cs with
        | none => none
        | some ((rt, q), r1) => some (.single rt q, r1)
  | [] => none

/-- A relation operator token. -/
def parseOpTok (cs : List Char) : Option (String × List Char) :=
  match cs with
  | '-' :: '>' :: rest => some ("->", rest)
  | '<' :: '-' :: rest => some ("<-", rest)
  | '~' :: '>' :: rest => some ("~>", rest)
  | '<' :: '~' :: rest => some ("<~", rest)
  | _ => none

/-- Remaining operator-argument pairs of a relation chain. -/
def parseChainRest (fuel : Nat) (cs : List Char) (acc : List RelItem) :
    Option (List RelItem × List Char) :=
  match fuel with
  | 0 => none
  | fuel + 1 =>
      match parseOpTok (skipWs cs) with
      | none => some (acc, cs)
      | some (op, r1) =>
          match parseRefArg (skipWs r1) with
          | none => none
          | some (arg, r2) => parseChainRest fuel r2 (acc ++ [.relOp op, .refArg arg])

/-- The attribute list of a resource declaration, one attribute at a time,
ending at the closing brace; a trailing comma is allowed. -/
def parseAttrsLoop (fuel : Nat) (cs : List Char)
    (acc : List (String × RawQuoted)) : Option (List (String × RawQuoted) × List Char) :=
  match fuel with
  | 0 => none
  | fuel + 1 =>
      match parseIdent cs with
      | none => none
      | some (name, r1) =>
          match skipWs r1 with
          | '=' :: '>' :: r2 =>
              match parseQuotedTok (skipWs r2) with
              | none => none
              | some (v, r3) =>
                  match skipWs r3 with
                  | c :: r4 =>
                      if c = ',' then
                        match skipWs r4 with
                        | d :: r5 =>
                            if d = rbraceChar then some (acc ++ [(name, v)], r5)
                            else parseAttrsLoop fuel (skipWs r4) (acc ++ [(name, v)])
                        | [] => none
                      else if c = rbraceChar then some (acc ++ [(name, v)], r4)
                      else none
                  | [] => none
          | _ => none

/-- Body of a resource declaration after its type name: braces around a
quoted title, a colon, and an optional attribute list. -/
def parseResourceTail (rt : String) (cs : List Char) : Option (RawStmt × List Char) :=
  match cs with
  | c :: rest =>
      if c = lbraceChar then
        match parseQuotedTok (skipWs rest) with
        | none => none
        | some (title, r1) =>
            match skipWs r1 with
            | ':' :: r2 =>
                match skipWs r2 with
                | d :: r3 =>
                    if d = rbraceChar then some (.resource rt title none, r3)
                    else
                      match parseAttrsLoop ((skipWs r2).length + 1) (skipWs r2) [] with
                      | none => none
                      | some (attrs, r4) => some (.resource rt title (some attrs), r4)
                | [] => none
            | _ => none
      else none
  | [] => none

/-- A full relation statement from its first reference argument: at least
one operator must follow. -/
def parseRelationFrom (first : RawRefArg) (cs : List Char) : Option (RawStmt × List Char) :=
  match parseChainRest (cs.length + 1) cs [] with
  | none => none
  | some ([], _) => none
  | some (items@(_ :: _), rest) => some (.relation (.refArg first :: items), rest)

/-- One top-level statement: a resource declaration, or a relation chain
whose first argument is a reference or a reference list. -/
def parseStmt (cs : List Char) : Option (RawStmt × List Char) :=
  match cs with
  | c :: _ =>
      if c = lbrackChar then
        match parseRefArg cs with
        | none => none
        | some (arg, r1) => parseRelationFrom arg r1
      else
        match parseTypeName cs with
        | none => none
        | some (rt, r1) =>
            match skipWs r1 with
            | d :: r2 =>
                if d = lbraceChar then parseResourceTail rt (skipWs r1)
                else if d = lbrackChar then
                  if isUcType rt then
                    match parseRefTail (d :: r2) with
                    | none => none
                    | some (q, r3) => parseRelationFrom (.single rt q) r3
                  else none
                else none
            | [] => none
  | [] => none

/-- The statement loop of the program rule. -/
def parseProg (fuel : Nat) (cs : List Char) (acc : List RawStmt) : Option (List RawStmt) :=
  match fuel with
  | 0 => none
  | fuel + 1 =>
      match skipWs cs with
      | [] => some acc
      | cs' =>
          match parseStmt cs' with
          | none => none
          | some (st, rest) => parseProg fuel rest (acc ++ [st])

/-- Modelled from the spec: the whole-program grammar rule over a source
text. -/
def parseProgram (s : String) : Option (List RawStmt) :=
  parseProg (s.data.length + 1) s.data []

/-- Manifest::from_str (pp.rs lines 161-385): grammar parse, AST build,
then the reference-validation second pass. -/
def Manifest.fromStr (s : String) : RustResult ManifestError Manifest :=
  match parseProgram s with
  | none => .err .syntaxErr
  | some stmts => Manifest.fromStmts stmts

/-- Insertion of a sequence of edges through the acyclicity admission
check, modelling successive try_add_edge calls on the guarded graph. -/
def tryInsertAll : List GEdge → List GEdge → Option (List GEdge)
  | es, [] => some es
  | es, (u, v, k) :: rest =>
      match tryAddEdgeRaw es u v k with
      | none => none
      | some es' => tryInsertAll es' rest

/-- Vertex u occurs strictly before vertex v in the list l. -/
def Before (l : List Nat) (u v : Nat) : Prop :=
  ∃ i j, i < j ∧ l.get? i = some u ∧ l.get? j = some v

/-- Every edge endpoint is a valid node index below n. -/
def EdgesBelow (es : List GEdge) (n : Nat) : Prop :=
  ∀ e ∈ es, e.1 < n ∧ e.2.1 < n

/-- All references mentioned by relation expressions, in scan order: for
each relation in source order, the from side then the to side. -/
def scanRefs (exprs : List PuppetExpr) : List ResourceRef :=
  exprs.flatMap fun e => match e with
    | .relation f t _ => f ++ t
    | .resource .. => []

/-- The references contributed by one ref_arg node, as converted by the
chain loop of from_str. -/
def groupRefs : RawRefArg → List ResourceRef
  | .single rt q => [⟨lowerString rt, parseQuotedString q⟩]
  | .list refs => refs.map refOfRaw

/-- The parse-tree item sequence of a relation chain: a first reference
argument followed by operator-argument pairs. -/
def chainItems (g0 : RawRefArg) (rest : List (String × RawRefArg)) : List RelItem :=
  .refArg g0 :: rest.flatMap fun p => [.relOp p.1, .refArg p.2]

/-- The relation_parts list a well-formed chain should produce: each group
paired with the operator that follows it, the last group with the dummy
empty operator. -/
def expectedParts : RawRefArg → List (String × RawRefArg) → List (List ResourceRef × String)
  | g, [] => [(groupRefs g, "")]
  | g, (op, g') :: rest => (groupRefs g, op) :: expectedParts g' rest

/-- The operator value of a valid operator token. -/
def opValue (op : String) : RelationOp :=
  match RelationOp.fromStr op with
  | .ok o => o
  | _ => .provide

/-- One Relation expression per consecutive pair of chain groups, each
carrying the operator written between that pair. -/
def expectedRels : RawRefArg → List (String × RawRefArg) → List PuppetExpr
  | _, [] => []
  | g, (op, g') :: rest =>
      .relation (groupRefs g) (groupRefs g') (opValue op) :: expectedRels g' rest

/-- Characters of the remaining double-colon-prefixed segments of a type
name. -/
def remChars (segs : List (List Char)) : List Char :=
  segs.flatMap fun s => ':' :: ':' :: s

/-- Characters of a nonempty segment list joined by double colons. -/
def segsChars : List (List Char) → List Char
  | [] => []
  | s :: more => s ++ remChars more

/-- A well-formed grammar segment: a letter followed by identifier
characters. -/
def GoodSeg (seg : List Char) : Prop :=
  ∃ c cs, seg = c :: cs ∧ c.isAlpha = true ∧ ∀ x ∈ cs, isIdentChar x = true

/-- The class of expressions whose display round-trips: attribute-free
resource declarations whose stored type name is a lowercase well-formed
segment sequence and whose title is one literal segment free of
apostrophes. -/
def GoodExprP : PuppetExpr → Prop
  | .resource rt title attrs =>
      attrs = [] ∧ lowerString rt = rt ∧
      (∃ segs, segs ≠ [] ∧ (∀ seg ∈ segs, GoodSeg seg) ∧ rt.data = segsChars segs) ∧
      (∃ t : List Char, title = ⟨[.literal (String.mk t)]⟩ ∧ ∀ c ∈ t, ¬ c = quoteChar)
  | .relation .. => False

/-- The characters of a one-literal title. -/
def titleChars : PuppetString → List Char
  | ⟨[.literal t]⟩ => t.data
  | _ => []

/-- The raw statement that re-parsing the display of a good resource
declaration produces: the same type name and a single-quoted title. -/
def stmtOfGood : PuppetExpr → RawStmt
  | .resource rt title _ =>
      .resource rt (.single (String.mk (quoteChar :: titleChars title ++ [quoteChar]))) none
  | .relation .. => .relation []

/-! Proofs.  First the reachability closure is related to the
reflexive-transitive closure of the step relation. -/

lemma mem_expandStep_of_mem {acc : List Nat} {x : Nat} (e : GEdge) (hx : x ∈ acc) :
    x ∈ expandStep acc e := by
  unfold expandStep
  split
  · exact List.mem_append_left _ hx
  · exact hx

lemma mem_of_mem_expandStep {acc : List Nat} {x : Nat} {e : GEdge}
    (hx : x ∈ expandStep acc e) : x ∈ acc ∨ x = e.2.1 := by
  unfold expandStep at hx
  split at hx
  · rcases List.mem_append.mp hx with h | h
    · exact Or.inl h
    · exact Or.inr (List.mem_singleton.mp h)
  · exact Or.inl hx

lemma mem_foldl_expand {l : List GEdge} {acc : List Nat} {x : Nat} (hx : x ∈ acc) :
    x ∈ l.foldl expandStep acc := by
  induction l generalizing acc with
  | nil => exact hx
  | cons e t ih => exact ih (mem_expandStep_of_mem e hx)

lemma foldl_expand_sound {es : List GEdge} {R : Nat → Prop}
    (hstep : ∀ u w k, R u → (u, w, k) ∈ es → R w) :
    ∀ (l : List GEdge), (∀ e ∈ l, e ∈ es) → ∀ (acc : List Nat), (∀ x ∈ acc, R x) →
      ∀ x ∈ l.foldl expandStep acc, R x := by
  intro l
  induction l with
  | nil => exact fun _ acc hacc x hx => hacc x hx
  | cons e t ih =>
      intro hsub acc hacc x hx
      refine ih (fun e' he' => hsub e' (List.mem_cons_of_mem _ he')) (expandStep acc e) ?_ x hx
      intro y hy
      rcases mem_of_mem_expandStep hy with h | h
      · exact hacc y h
      · subst h
        unfold expandStep at hy
        split at hy
        · next hcond =>
            have h1 : e.1 ∈ acc := by
              have := hcond.1
              simpa [List.contains] using this
            exact hstep e.1 e.2.1 e.2.2 (hacc e.1 h1) (hsub e (List.mem_cons_self e t))
        · exact hacc _ hy

lemma mem_closure_sound {es : List GEdge} {v x : Nat} (hx : x ∈ closure es v) :
    Relation.ReflTransGen (EStep es) v x := by
  suffices h : ∀ n y, y ∈ (expandOnce es)^[n] [v] → Relation.ReflTransGen (EStep es) v y from
    h _ x hx
  intro n
  induction n with
  | zero =>
      intro y hy
      simp only [Function.iterate_zero, id_eq, List.mem_singleton] at hy
      subst hy
      exact Relation.ReflTransGen.refl
  | succ n ih =>
      intro y hy
      rw [Function.iterate_succ_apply'] at hy
      exact foldl_expand_sound
        (fun u w k hu hm => hu.tail ⟨k, hm⟩) es (fun _ h => h) _ ih y hy

lemma mem_foldl_expand_of_edge :
    ∀ (l : List GEdge) (acc : List Nat) (u w : Nat) (k : Relation),
      (u, w, k) ∈ l → u ∈ acc → w ∈ l.foldl expandStep acc := by
  intro l
  induction l with
  | nil => intro acc u w k h; exact absurd h (List.not_mem_nil _)
  | cons e t ih =>
      intro acc u w k hm hu
      rw [List.foldl_cons]
      rcases List.mem_cons.mp hm with he | ht
      · by_cases hw : w ∈ acc
        · exact mem_foldl_expand (mem_expandStep_of_mem e hw)
        · have hstep : expandStep acc e = acc ++ [w] := by
            subst he
            unfold expandStep
            rw [if_pos]
            refine ⟨?_, ?_⟩ <;> simp [List.contains, hu, hw]
          have hmem : w ∈ expandStep acc e := by
            rw [hstep]; exact List.mem_append_right _ (List.mem_singleton_self w)
          exact mem_foldl_expand hmem
      · exact ih (expandStep acc e) u w k ht (mem_expandStep_of_mem e hu)

lemma foldl_expand_eq_append :
    ∀ (l : List GEdge) (acc : List Nat), ∃ ext, l.foldl expandStep acc = acc ++ ext := by
  intro l
  induction l with
  | nil => exact fun acc => ⟨[], by simp⟩
  | cons e t ih =>
      intro acc
      have hstep : ∃ e1, expandStep acc e = acc ++ e1 := by
        unfold expandStep
        split
        · exact ⟨[e.2.1], rfl⟩
        · exact ⟨[], by simp⟩
      obtain ⟨e1, h1⟩ := hstep
      obtain ⟨ext, h2⟩ := ih (expandStep acc e)
      refine ⟨e1 ++ ext, ?_⟩
      rw [List.foldl_cons, h2, h1, List.append_assoc]

lemma expand_fixpoint_closed {es : List GEdge} {acc : List Nat}
    (hfix : expandOnce es acc = acc) :
    ∀ u w, u ∈ acc → EStep es u w → w ∈ acc := by
  rintro u w hu ⟨k, hm⟩
  have h := mem_foldl_expand_of_edge es acc u w k hm hu
  rwa [show es.foldl expandStep acc = expandOnce es acc from rfl, hfix] at h

lemma expandStep_nodup {acc : List Nat} (hnd : acc.Nodup) (e : GEdge) :
    (expandStep acc e).Nodup := by
  unfold expandStep
  split
  · next hcond =>
      have hw : e.2.1 ∉ acc := by
        have h2 := hcond.2
        simpa [List.contains] using h2
      simp [List.nodup_append, hnd, hw]
  · exact hnd

lemma foldl_expand_nodup : ∀ (l : List GEdge) (acc : List Nat), acc.Nodup →
    (l.foldl expandStep acc).Nodup := by
  intro l
  induction l with
  | nil => exact fun _ h => h
  | cons e t ih =>
      intro acc hnd
      rw [List.foldl_cons]
      exact ih _ (expandStep_nodup hnd e)

lemma foldl_expand_subset_targets :
    ∀ (l : List GEdge) (acc : List Nat) (x : Nat), x ∈ l.foldl expandStep acc →
      x ∈ acc ∨ x ∈ l.map (fun e => e.2.1) := by
  intro l
  induction l with
  | nil => exact fun acc x hx => Or.inl hx
  | cons e t ih =>
      intro acc x hx
      rw [List.foldl_cons] at hx
      rcases ih _ x hx with h | h
      · rcases mem_of_mem_expandStep h with h' | h'
        · exact Or.inl h'
        · exact Or.inr (by simp [h'])
      · exact Or.inr (by simp; exact Or.inr (by simpa using h))

lemma iterate_subset_pool {es : List GEdge} {v : Nat} :
    ∀ (n : Nat) (x : Nat), x ∈ (expandOnce es)^[n] [v] →
      x ∈ v :: es.map (fun e => e.2.1) := by
  intro n
  induction n with
  | zero =>
      intro x hx
      simp only [Function.iterate_zero, id_eq, List.mem_singleton] at hx
      simp [hx]
  | succ n ih =>
      intro x hx
      rw [Function.iterate_succ_apply'] at hx
      rcases foldl_expand_subset_targets es _ x hx with h | h
      · exact ih x h
      · exact List.mem_cons_of_mem _ h

lemma iterate_nodup {es : List GEdge} {v : Nat} :
    ∀ n : Nat, ((expandOnce es)^[n] [v]).Nodup := by
  intro n
  induction n with
  | zero => simp
  | succ n ih =>
      rw [Function.iterate_succ_apply']
      exact foldl_expand_nodup es _ ih

lemma iterate_length_le {es : List GEdge} {v : Nat} (n : Nat) :
    ((expandOnce es)^[n] [v]).length ≤ es.length + 1 := by
  have hsub : (expandOnce es)^[n] [v] ⊆ v :: es.map (fun e => e.2.1) :=
    fun x hx => iterate_subset_pool n x hx
  have hpm := (@iterate_nodup es v n).subperm hsub
  have hlen := hpm.length_le
  simpa using hlen

lemma iterate_grow {es : List GEdge} {v : Nat} :
    ∀ n : Nat, (∀ k < n, (expandOnce es)^[k+1] [v] ≠ (expandOnce es)^[k] [v]) →
      n + 1 ≤ ((expandOnce es)^[n] [v]).length := by
  intro n
  induction n with
  | zero => intro _; simp
  | succ n ih =>
      intro hne
      have h1 : n + 1 ≤ ((expandOnce es)^[n] [v]).length :=
        ih fun k hk => hne k (Nat.lt_succ_of_lt hk)
      have h2 : (expandOnce es)^[n+1] [v] ≠ (expandOnce es)^[n] [v] :=
        hne n (Nat.lt_succ_self n)
      obtain ⟨ext, hext⟩ := foldl_expand_eq_append es ((expandOnce es)^[n] [v])
      have heq : (expandOnce es)^[n+1] [v] = (expandOnce es)^[n] [v] ++ ext := by
        rw [Function.iterate_succ_apply']
        exact hext
      have hextne : ext ≠ [] := by
        intro h0
        apply h2
        rw [heq, h0, List.append_nil]
      have : 1 ≤ ext.length := by
        cases ext with
        | nil => exact absurd rfl hextne
        | cons a t => simp
      rw [heq, List.length_append]
      omega

lemma exists_fixpoint_step (es : List GEdge) (v : Nat) :
    ∃ k ≤ es.length, (expandOnce es)^[k+1] [v] = (expandOnce es)^[k] [v] := by
  by_contra hcon
  push_neg at hcon
  have hgrow := @iterate_grow es v (es.length + 1)
    (fun k hk => hcon k (Nat.lt_succ_iff.mp hk))
  have hle := @iterate_length_le es v (es.length + 1)
  omega

lemma iterate_stable {es : List GEdge} {v : Nat} {k : Nat}
    (hfix : (expandOnce es)^[k+1] [v] = (expandOnce es)^[k] [v]) :
    ∀ m, k ≤ m → (expandOnce es)^[m] [v] = (expandOnce es)^[k] [v] := by
  intro m hm
  induction m, hm using Nat.le_induction with
  | base => rfl
  | succ m hm ih =>
      rw [Function.iterate_succ_apply', ih]
      have h := Function.iterate_succ_apply' (expandOnce es) k [v]
      rw [← h]
      exact hfix

lemma closure_fix (es : List GEdge) (v : Nat) :
    expandOnce es (closure es v) = closure es v := by
  obtain ⟨k, hk, hfix⟩ := exists_fixpoint_step es v
  have hs : closure es v = (expandOnce es)^[k] [v] :=
    iterate_stable hfix (es.length + 1) (by omega)
  rw [hs]
  have h := Function.iterate_succ_apply' (expandOnce es) k [v]
  rw [← h]
  exact hfix

lemma closure_closed {es : List GEdge} {v u w : Nat}
    (hu : u ∈ closure es v) (hs : EStep es u w) : w ∈ closure es v :=
  expand_fixpoint_closed (closure_fix es v) u w hu hs

lemma mem_closure_self (es : List GEdge) (v : Nat) : v ∈ closure es v := by
  show v ∈ (expandOnce es)^[es.length + 1] [v]
  induction es.length + 1 with
  | zero => simp
  | succ n ih =>
      rw [Function.iterate_succ_apply']
      exact mem_foldl_expand ih

lemma mem_closure_complete {es : List GEdge} {v x : Nat}
    (h : Relation.ReflTransGen (EStep es) v x) : x ∈ closure es v := by
  induction h with
  | refl => exact mem_closure_self es v
  | tail _ hstep ih => exact closure_closed ih hstep

lemma reachableB_iff (es : List GEdge) (u v : Nat) :
    reachableB es u v = true ↔ Relation.ReflTransGen (EStep es) u v := by
  unfold reachableB
  constructor
  · intro h
    exact mem_closure_sound (by simpa [List.contains] using h)
  · intro h
    simpa [List.contains] using mem_closure_complete h

/-! Acyclicity: extending an acyclic edge list through the admission check
preserves acyclicity, and an insertion that would close a cycle is always
rejected. -/

lemma estep_append {es : List GEdge} {u v : Nat} {k : Relation} {a b : Nat} :
    EStep (es ++ [(u, v, k)]) a b ↔ EStep es a b ∨ (a = u ∧ b = v) := by
  unfold EStep
  constructor
  · rintro ⟨k0, hk0⟩
    rcases List.mem_append.mp hk0 with h | h
    · exact Or.inl ⟨k0, h⟩
    · have := List.mem_singleton.mp h
      injection this with h1 h2
      injection h2 with h2 h3
      exact Or.inr ⟨h1, h2⟩
  · rintro (⟨k0, hk0⟩ | ⟨ha, hb⟩)
    · exact ⟨k0, List.mem_append_left _ hk0⟩
    · subst ha; subst hb
      exact ⟨k, List.mem_append_right _ (List.mem_singleton_self _)⟩

lemma rtg_append_decompose {es : List GEdge} {u v : Nat} {k : Relation} {x y : Nat}
    (h : Relation.ReflTransGen (EStep (es ++ [(u, v, k)])) x y) :
    Relation.ReflTransGen (EStep es) x y ∨
      (Relation.ReflTransGen (EStep es) x u ∧ Relation.ReflTransGen (EStep es) v y) := by
  induction h with
  | refl => exact Or.inl Relation.ReflTransGen.refl
  | tail _ hstep ih =>
      rcases estep_append.mp hstep with hs | ⟨hbu, hcv⟩
      · rcases ih with h1 | ⟨h1, h2⟩
        · exact Or.inl (h1.tail hs)
        · exact Or.inr ⟨h1, h2.tail hs⟩
      · subst hbu; subst hcv
        rcases ih with h1 | ⟨h1, _⟩
        · exact Or.inr ⟨h1, Relation.ReflTransGen.refl⟩
        · exact Or.inr ⟨h1, Relation.ReflTransGen.refl⟩

lemma acyclic_append {es : List GEdge} {u v : Nat} {k : Relation}
    (hacy : AcyclicEdges es) (hnr : ¬ Relation.ReflTransGen (EStep es) v u) :
    AcyclicEdges (es ++ [(u, v, k)]) := by
  intro w hw
  obtain ⟨z, hwz, hzw⟩ := Relation.TransGen.head'_iff.mp hw
  rcases estep_append.mp hwz with hs | ⟨hwu, hzv⟩
  · rcases rtg_append_decompose hzw with h1 | ⟨h1, h2⟩
    · exact hacy w (Relation.TransGen.head' hs h1)
    · exact hnr (h2.trans ((Relation.ReflTransGen.single hs).trans h1))
  · subst hwu; subst hzv
    rcases rtg_append_decompose hzw with h1 | ⟨h1, _⟩
    · exact hnr h1
    · exact hnr h1

lemma rtg_of_not_acyclic_append {es : List GEdge} {u v : Nat} {k : Relation}
    (hacy : AcyclicEdges es) (hnot : ¬ AcyclicEdges (es ++ [(u, v, k)])) :
    Relation.ReflTransGen (EStep es) v u := by
  by_contra hnr
  exact hnot (acyclic_append hacy hnr)

lemma acyclic_nil : AcyclicEdges [] := by
  intro w hw
  obtain ⟨z, hwz, _⟩ := Relation.TransGen.head'_iff.mp hw
  obtain ⟨k, hk⟩ := hwz
  exact absurd hk (List.not_mem_nil _)

lemma acyclic_of_hasCycleB_false {es : List GEdge} (h : hasCycleB es = false) :
    AcyclicEdges es := by
  intro w hw
  obtain ⟨z, hwz, hzw⟩ := Relation.TransGen.head'_iff.mp hw
  obtain ⟨k, hk⟩ := hwz
  have hreach : reachableB es z w = true := (reachableB_iff es z w).mpr hzw
  have : hasCycleB es = true := by
    unfold hasCycleB
    rw [List.any_eq_true]
    exact ⟨(w, z, k), hk, by simpa using hreach⟩
  rw [h] at this
  exact absurd this (by simp)

lemma tryAddEdgeRaw_some_acyclic {es es' : List GEdge} {u v : Nat} {k : Relation}
    (hacy : AcyclicEdges es) (h : tryAddEdgeRaw es u v k = some es') :
    AcyclicEdges es' := by
  unfold tryAddEdgeRaw at h
  split at h
  · exact absurd h (by simp)
  · next hr =>
      have hval : es' = es ++ [(u, v, k)] := by
        injection h with h'
        exact h'.symm
      subst hval
      apply acyclic_append hacy
      intro hrtg
      exact hr ((reachableB_iff es v u).mpr hrtg)

lemma tryAddEdgeRaw_none_of_cycle {es : List GEdge} {u v : Nat} {k : Relation}
    (hacy : AcyclicEdges es) (hnot : ¬ AcyclicEdges (es ++ [(u, v, k)])) :
    tryAddEdgeRaw es u v k = none := by
  have hrtg := rtg_of_not_acyclic_append hacy hnot
  unfold tryAddEdgeRaw
  rw [if_pos ((reachableB_iff es v u).mpr hrtg)]

lemma tryAddEdgeRaw_some_shape {es es' : List GEdge} {u v : Nat} {k : Relation}
    (h : tryAddEdgeRaw es u v k = some es') : es' = es ++ [(u, v, k)] := by
  unfold tryAddEdgeRaw at h
  split at h
  · exact absurd h (by simp)
  · injection h with h'
    exact h'.symm

/-! Invariants of plan construction: every edge list produced by the
guarded insertions stays acyclic and keeps endpoints below the node
count. -/

/-- Every value stored in the lookup table is below n. -/
def MapBelow (map : NodeMap) (n : Nat) : Prop :=
  ∀ kv ∈ map, kv.2 < n

lemma mapGet_lt {map : NodeMap} {n : Nat} {k : String} {i : Nat}
    (hmb : MapBelow map n) (h : mapGet map k = some i) : i < n := by
  unfold mapGet at h
  cases hf : map.find? (fun p => p.1 = k) with
  | none => rw [hf] at h; exact absurd h (by simp)
  | some kv =>
      rw [hf] at h
      simp at h
      have hmem := List.mem_of_find?_eq_some hf
      have := hmb kv hmem
      omega

lemma mapInsert_mem {map : NodeMap} {k : String} {v : Nat} {kv : String × Nat}
    (h : kv ∈ mapInsert map k v) : kv ∈ map ∨ kv = (k, v) := by
  unfold mapInsert at h
  split at h
  · obtain ⟨p, hp, hpe⟩ := List.mem_map.mp h
    by_cases hc : p.1 = k
    · rw [if_pos hc] at hpe
      exact Or.inr hpe.symm
    · rw [if_neg hc] at hpe
      exact Or.inl (hpe ▸ hp)
  · rcases List.mem_append.mp h with h1 | h1
    · exact Or.inl h1
    · exact Or.inr (List.mem_singleton.mp h1)

lemma mapInsert_below {map : NodeMap} {n : Nat} {k : String}
    (hmb : MapBelow map n) : MapBelow (mapInsert map k n) (n + 1) := by
  intro kv hkv
  rcases mapInsert_mem hkv with h | h
  · have := hmb kv h; omega
  · rw [h]; omega

lemma addResources_below :
    ∀ (exprs : List PuppetExpr) (nodes : List ResourceNode) (map : NodeMap)
      (nodes' : List ResourceNode) (map' : NodeMap),
      addResources nodes map exprs = .ok (nodes', map') →
      MapBelow map nodes.length → MapBelow map' nodes'.length := by
  intro exprs
  induction exprs with
  | nil =>
      intro nodes map nodes' map' h hmb
      unfold addResources at h
      injection h with h'
      injection h' with h1 h2
      subst h1; subst h2
      exact hmb
  | cons e rest ih =>
      intro nodes map nodes' map' h hmb
      unfold addResources at h
      cases htf : tryFromExpr e with
      | error err => rw [htf] at h; exact absurd h (by simp)
      | ok node =>
          rw [htf] at h
          refine ih _ _ _ _ h ?_
          have := mapInsert_below (k := node.id) hmb
          simpa using this

lemma tryAddEdge_ok_inv {es es' : List GEdge} {f t : ResourceRef} {i j n : Nat}
    {rel : Relation} (hi : i < n) (hj : j < n)
    (h : tryAddEdge es f t i j rel = .ok es')
    (hinv : AcyclicEdges es ∧ EdgesBelow es n) :
    AcyclicEdges es' ∧ EdgesBelow es' n := by
  unfold tryAddEdge at h
  cases hr : tryAddEdgeRaw es i j rel with
  | none => rw [hr] at h; exact absurd h (by simp)
  | some es2 =>
      rw [hr] at h
      injection h with h'
      subst h'
      refine ⟨tryAddEdgeRaw_some_acyclic hinv.1 hr, ?_⟩
      have hshape := tryAddEdgeRaw_some_shape hr
      subst hshape
      intro e he
      rcases List.mem_append.mp he with h1 | h1
      · exact hinv.2 e h1
      · have := List.mem_singleton.mp h1
        subst this
        exact ⟨hi, hj⟩

lemma addEdgesInner_ok_inv {map : NodeMap} {n : Nat} {f : ResourceRef} {rel : Relation}
    (hmb : MapBelow map n) :
    ∀ (ts : List ResourceRef) (es es' : List GEdge),
      addEdgesInner map f rel es ts = .ok es' →
      AcyclicEdges es ∧ EdgesBelow es n → AcyclicEdges es' ∧ EdgesBelow es' n := by
  intro ts
  induction ts with
  | nil =>
      intro es es' h hinv
      unfold addEdgesInner at h
      injection h with h'
      subst h'
      exact hinv
  | cons t ts ih =>
      intro es es' h hinv
      unfold addEdgesInner at h
      cases hgf : mapGet map f.id with
      | none => simp [hgf] at h
      | some i =>
          simp only [hgf] at h
          cases hgt : mapGet map t.id with
          | none => simp [hgt] at h
          | some j =>
              simp only [hgt] at h
              cases hadd : tryAddEdge es f t i j rel with
              | error e => simp [hadd] at h
              | ok es2 =>
                  simp only [hadd] at h
                  exact ih es2 es' h
                    (tryAddEdge_ok_inv (mapGet_lt hmb hgf) (mapGet_lt hmb hgt) hadd hinv)

lemma tryAddEdgesFromRelation_ok_inv {map : NodeMap} {n : Nat} {rel : Relation}
    (hmb : MapBelow map n) :
    ∀ (fs ts : List ResourceRef) (es es' : List GEdge),
      tryAddEdgesFromRelation map rel es fs ts = .ok es' →
      AcyclicEdges es ∧ EdgesBelow es n → AcyclicEdges es' ∧ EdgesBelow es' n := by
  intro fs
  induction fs with
  | nil =>
      intro ts es es' h hinv
      unfold tryAddEdgesFromRelation at h
      injection h with h'
      subst h'
      exact hinv
  | cons f fs ih =>
      intro ts es es' h hinv
      unfold tryAddEdgesFromRelation at h
      cases hai : addEdgesInner map f rel es ts with
      | error e => rw [hai] at h; exact absurd h (by simp)
      | ok es2 =>
          rw [hai] at h
          exact ih ts es2 es' h (addEdgesInner_ok_inv hmb ts es es2 hai hinv)

lemma addRelations_ok_inv {map : NodeMap} {n : Nat} {e : PuppetExpr}
    {es es' : List GEdge} (hmb : MapBelow map n)
    (h : addRelations map es e = .ok es')
    (hinv : AcyclicEdges es ∧ EdgesBelow es n) :
    AcyclicEdges es' ∧ EdgesBelow es' n := by
  cases e with
  | resource rt ti at_ => exact absurd h (by simp [addRelations])
  | relation f t op =>
      cases op <;>
        exact tryAddEdgesFromRelation_ok_inv hmb _ _ es es' h hinv

lemma addAllRelations_ok_inv {map : NodeMap} {n : Nat} (hmb : MapBelow map n) :
    ∀ (rels : List PuppetExpr) (es es' : List GEdge),
      addAllRelations map es rels = .ok es' →
      AcyclicEdges es ∧ EdgesBelow es n → AcyclicEdges es' ∧ EdgesBelow es' n := by
  intro rels
  induction rels with
  | nil =>
      intro es es' h hinv
      unfold addAllRelations at h
      injection h with h'
      subst h'
      exact hinv
  | cons e rest ih =>
      intro es es' h hinv
      unfold addAllRelations at h
      cases har : addRelations map es e with
      | error err => rw [har] at h; exact absurd h (by simp)
      | ok es2 =>
          rw [har] at h
          exact ih es2 es' h (addRelations_ok_inv hmb har hinv)

lemma parsePuppetManifest_ok_inv {m : Manifest} {p : Plan}
    (h : parsePuppetManifest m = .ok p) :
    AcyclicEdges p.graph.edges ∧ EdgesBelow p.graph.edges p.graph.nodes.length := by
  unfold parsePuppetManifest at h
  cases har : addResources [] [] m.resources with
  | error err => rw [har] at h; exact absurd h (by simp)
  | ok nm =>
      rw [har] at h
      obtain ⟨nodes, map⟩ := nm
      have hcyc : hasCycleB ([] : List GEdge) = false := rfl
      rw [hcyc] at h
      simp only [Bool.false_eq_true, if_false] at h
      cases hall : addAllRelations map [] m.relations with
      | error err => rw [hall] at h; exact absurd h (by simp)
      | ok es =>
          rw [hall] at h
          injection h with h'
          subst h'
          have hmb : MapBelow map nodes.length :=
            addResources_below m.resources [] [] nodes map har (by intro kv hkv; cases hkv)
          exact addAllRelations_ok_inv hmb m.relations [] es hall
            ⟨acyclic_nil, by intro e he; cases he⟩

/-! Topological-sort correctness: on an acyclic edge list the sort always
succeeds, and the emitted order places sources before targets along every
edge and hence along every path. -/

lemma estepB_iff (es : List GEdge) (u v : Nat) :
    estepB es u v = true ↔ EStep es u v := by
  unfold estepB EStep
  rw [List.any_eq_true]
  constructor
  · rintro ⟨e, he, hp⟩
    have hp' : e.1 = u ∧ e.2.1 = v := by simpa using hp
    refine ⟨e.2.2, ?_⟩
    have : e = (u, v, e.2.2) := by
      obtain ⟨e1, e2, e3⟩ := e
      simp at hp' ⊢
      exact ⟨hp'.1, hp'.2⟩
    rwa [this] at he
  · rintro ⟨k, hk⟩
    exact ⟨(u, v, k), hk, by simp⟩

lemma noIncoming_iff (es : List GEdge) (remaining : List Nat) (v : Nat) :
    noIncoming es remaining v = true ↔ ∀ u ∈ remaining, ¬ EStep es u v := by
  unfold noIncoming
  constructor
  · intro h u hu hs
    have h' : ¬ (remaining.any fun u => estepB es u v) = true := by simpa using h
    exact h' (List.any_eq_true.mpr ⟨u, hu, (estepB_iff es u v).mpr hs⟩)
  · intro h
    have h' : ¬ (remaining.any fun u => estepB es u v) = true := by
      intro hany
      obtain ⟨u, hu, hp⟩ := List.any_eq_true.mp hany
      exact h u hu ((estepB_iff es u v).mp hp)
    simpa using h'

lemma exists_source {es : List GEdge} (hacy : AcyclicEdges es) :
    ∀ (S : Finset ℕ), S.Nonempty → ∃ m ∈ S, ∀ u ∈ S, ¬ EStep es u m := by
  classical
  intro S
  induction S using Finset.strongInduction with
  | _ S ih =>
      intro hne
      obtain ⟨v, hv⟩ := hne
      by_cases hP : (S.filter (fun x => Relation.TransGen (EStep es) x v)).Nonempty
      · have hsub : S.filter (fun x => Relation.TransGen (EStep es) x v) ⊂ S := by
          rw [Finset.ssubset_iff_of_subset (Finset.filter_subset _ S)]
          refine ⟨v, hv, ?_⟩
          intro hvP
          exact hacy v (Finset.mem_filter.mp hvP).2
        obtain ⟨m, hmP, hm⟩ := ih _ hsub hP
        refine ⟨m, (Finset.filter_subset _ S) hmP, ?_⟩
        intro u hu hstep
        have hmv : Relation.TransGen (EStep es) m v := (Finset.mem_filter.mp hmP).2
        have huP : u ∈ S.filter (fun x => Relation.TransGen (EStep es) x v) :=
          Finset.mem_filter.mpr ⟨hu, Relation.TransGen.head hstep hmv⟩
        exact hm u huP hstep
      · refine ⟨v, hv, ?_⟩
        intro u hu hstep
        exact hP ⟨u, Finset.mem_filter.mpr ⟨hu, Relation.TransGen.single hstep⟩⟩

lemma topoSortAux_ok {es : List GEdge} (hacy : AcyclicEdges es) :
    ∀ (fuel : Nat) (remaining : List Nat), remaining.length ≤ fuel →
      ∃ l, topoSortAux es fuel remaining = .ok l := by
  intro fuel
  induction fuel with
  | zero =>
      intro remaining hlen
      have : remaining = [] := List.length_eq_zero.mp (Nat.le_zero.mp hlen)
      subst this
      exact ⟨[], rfl⟩
  | succ fuel ih =>
      intro remaining hlen
      cases hrem : remaining with
      | nil => exact ⟨[], rfl⟩
      | cons a rest =>
          subst hrem
          have hSne : (a :: rest).toFinset.Nonempty := ⟨a, by simp⟩
          obtain ⟨m, hmS, hm⟩ := exists_source hacy (a :: rest).toFinset hSne
          have hmem : m ∈ a :: rest := by simpa using hmS
          have hpred : noIncoming es (a :: rest) m = true :=
            (noIncoming_iff es _ m).mpr fun u hu => hm u (by simpa using hu)
          have hfind : ((a :: rest).find? (noIncoming es (a :: rest))).isSome :=
            List.find?_isSome.mpr ⟨m, hmem, hpred⟩
          obtain ⟨m', hm'⟩ := Option.isSome_iff_exists.mp hfind
          have hmem' : m' ∈ a :: rest := List.mem_of_find?_eq_some hm'
          have hlen' : ((a :: rest).erase m').length ≤ fuel := by
            have := List.length_erase_add_one hmem'
            simp only [List.length_cons] at hlen this
            omega
          obtain ⟨l, hl⟩ := ih ((a :: rest).erase m') hlen'
          refine ⟨m' :: l, ?_⟩
          unfold topoSortAux
          simp [hm', hl]

lemma topoSortAux_sorted {es : List GEdge} :
    ∀ (fuel : Nat) (remaining : List Nat) (l : List Nat),
      topoSortAux es fuel remaining = .ok l → remaining.Nodup →
      l.Perm remaining ∧
        (∀ u v, u ∈ remaining → v ∈ remaining → EStep es u v → Before l u v) := by
  intro fuel
  induction fuel with
  | zero =>
      intro remaining l h hnd
      cases remaining with
      | nil =>
          have : l = [] := by
            unfold topoSortAux at h
            injection h with h'
            exact h'.symm
          subst this
          exact ⟨List.Perm.refl _, fun u v hu => absurd hu (List.not_mem_nil _)⟩
      | cons a rest => exact absurd h (by unfold topoSortAux; simp)
  | succ fuel ih =>
      intro remaining l h hnd
      cases remaining with
      | nil =>
          have : l = [] := by
            unfold topoSortAux at h
            injection h with h'
            exact h'.symm
          subst this
          exact ⟨List.Perm.refl _, fun u v hu => absurd hu (List.not_mem_nil _)⟩
      | cons a rest =>
          unfold topoSortAux at h
          split at h
          · exact absurd h (by simp)
          · next m hfind =>
              split at h
              · exact absurd h (by simp)
              · next l' hrec =>
                  injection h with h'
                  subst h'
                  have hmem : m ∈ a :: rest := List.mem_of_find?_eq_some hfind
                  have hsrc : ∀ u ∈ a :: rest, ¬ EStep es u m :=
                    (noIncoming_iff es _ m).mp (List.find?_some hfind)
                  have hndE : ((a :: rest).erase m).Nodup := hnd.erase m
                  obtain ⟨hperm, hord⟩ := ih _ l' hrec hndE
                  constructor
                  · exact (hperm.cons m).trans (List.perm_cons_erase hmem).symm
                  · intro u v hu hv hstep
                    have hvm : v ≠ m := fun he => hsrc u hu (he ▸ hstep)
                    by_cases hum : u = m
                    · subst hum
                      have hvE : v ∈ (a :: rest).erase u :=
                        (List.mem_erase_of_ne hvm).mpr hv
                      have hvl : v ∈ l' := hperm.mem_iff.mpr hvE
                      obtain ⟨j, hj⟩ := List.mem_iff_get?.mp hvl
                      exact ⟨0, j + 1, Nat.succ_pos j, rfl, by simpa using hj⟩
                    · have huE : u ∈ (a :: rest).erase m :=
                        (List.mem_erase_of_ne hum).mpr hu
                      have hvE : v ∈ (a :: rest).erase m :=
                        (List.mem_erase_of_ne hvm).mpr hv
                      obtain ⟨i, j, hij, hi, hj⟩ := hord u v huE hvE hstep
                      exact ⟨i + 1, j + 1, by omega, by simpa using hi, by simpa using hj⟩

lemma before_trans {l : List Nat} (hnd : l.Nodup) {u v w : Nat}
    (h1 : Before l u v) (h2 : Before l v w) : Before l u w := by
  obtain ⟨i, j, hij, hi, hj⟩ := h1
  obtain ⟨j', k, hjk, hj', hk⟩ := h2
  have hjlen : j < l.length := (List.get?_eq_some.mp hj).1
  have hjj : j = j' := by
    apply List.get?_inj hjlen hnd
    rw [hj, hj']
  subst hjj
  exact ⟨i, k, by omega, hi, hk⟩

lemma before_of_path {es : List GEdge} {l : List Nat} (hnd : l.Nodup)
    (hedge : ∀ u v, EStep es u v → Before l u v) :
    ∀ u v, Relation.TransGen (EStep es) u v → Before l u v := by
  intro u v h
  induction h with
  | single hs => exact hedge _ _ hs
  | tail _ hs ih => exact before_trans hnd ih (hedge _ _ hs)

lemma toposort_correct {es : List GEdge} {n : Nat}
    (hacy : AcyclicEdges es) (hbelow : EdgesBelow es n) :
    ∃ l, topoSortAux es n (List.range n) = .ok l ∧
      ∀ u v, Relation.TransGen (EStep es) u v → Before l u v := by
  obtain ⟨l, hl⟩ := topoSortAux_ok hacy n (List.range n) (by simp)
  obtain ⟨hperm, hord⟩ := topoSortAux_sorted n (List.range n) l hl (List.nodup_range n)
  have hndl : l.Nodup := hperm.nodup_iff.mpr (List.nodup_range n)
  refine ⟨l, hl, ?_⟩
  refine before_of_path hndl ?_
  intro u v hs
  obtain ⟨k, hk⟩ := id hs
  have hu : u ∈ List.range n := List.mem_range.mpr (hbelow (u, v, k) hk).1
  have hv : v ∈ List.range n := List.mem_range.mpr (hbelow (u, v, k) hk).2
  exact hord u v hu hv hs

lemma tryInsertAll_acyclic :
    ∀ (new es0 es : List GEdge), tryInsertAll es0 new = some es →
      AcyclicEdges es0 → AcyclicEdges es := by
  intro new
  induction new with
  | nil =>
      intro es0 es h hacy
      unfold tryInsertAll at h
      injection h with h'
      subst h'
      exact hacy
  | cons e rest ih =>
      intro es0 es h hacy
      obtain ⟨u, v, k⟩ := e
      unfold tryInsertAll at h
      cases hr : tryAddEdgeRaw es0 u v k with
      | none => simp [hr] at h
      | some es1 =>
          simp only [hr] at h
          exact ih es1 es h (tryAddEdgeRaw_some_acyclic hacy hr)

/-- C3: for every manifest, an edge whose insertion into the dependency
graph would create a cycle is rejected with a cycle error identifying the
offending endpoint pair, and plan construction aborts: every plan value
actually returned has acyclic edges, so no partial possibly-cyclic plan is
ever surfaced. -/
theorem c3_cycle_rejected_no_partial_plan :
    (∀ (es : List GEdge) (f t : ResourceRef) (i j : Nat) (rel : Relation),
        AcyclicEdges es → ¬ AcyclicEdges (es ++ [(i, j, rel)]) →
        tryAddEdge es f t i j rel = .error (.cycleEdge f rel t)) ∧
    (∀ (m : Manifest) (p : Plan), parsePuppetManifest m = .ok p →
        AcyclicEdges p.graph.edges) := by
  constructor
  · intro es f t i j rel hacy hnot
    unfold tryAddEdge
    rw [tryAddEdgeRaw_none_of_cycle hacy hnot]
  · intro m p h
    exact (parsePuppetManifest_ok_inv h).1

/-- Witness for C3: a concrete two-edge acyclic graph rejects the
cycle-closing third edge with the error naming its endpoints, and a
concretely built plan has acyclic edges. -/
theorem c3_witness :
    tryAddEdge [(0, 1, Relation.provide), (1, 2, Relation.provide)]
        ⟨"file", ⟨[.literal "c"]⟩⟩ ⟨"file", ⟨[.literal "a"]⟩⟩ 2 0 .provide
      = .error (.cycleEdge ⟨"file", ⟨[.literal "c"]⟩⟩ .provide ⟨"file", ⟨[.literal "a"]⟩⟩) ∧
    AcyclicEdges (Plan.mk ⟨[], []⟩).graph.edges := by
  constructor
  · apply c3_cycle_rejected_no_partial_plan.1
    · exact acyclic_of_hasCycleB_false (by decide)
    · intro hacy
      apply hacy 0
      have e01 : EStep ([(0, 1, Relation.provide), (1, 2, Relation.provide)]
          ++ [(2, 0, Relation.provide)]) 0 1 := ⟨.provide, by simp⟩
      have e12 : EStep ([(0, 1, Relation.provide), (1, 2, Relation.provide)]
          ++ [(2, 0, Relation.provide)]) 1 2 := ⟨.provide, by simp⟩
      have e20 : EStep ([(0, 1, Relation.provide), (1, 2, Relation.provide)]
          ++ [(2, 0, Relation.provide)]) 2 0 := ⟨.provide, by simp⟩
      exact ((Relation.TransGen.single e01).tail e12).tail e20
  · exact c3_cycle_rejected_no_partial_plan.2 ⟨[]⟩ (Plan.mk ⟨[], []⟩) rfl

/-- C5: for every successfully built plan the topological-order query
succeeds, and whenever the plan contains a path from A to B then A appears
before B in the returned ordering; likewise for any edge sequence accepted
by the guarded insertions. -/
theorem c5_toposort_succeeds_respects_paths :
    (∀ (m : Manifest) (p : Plan), parsePuppetManifest m = .ok p →
        ∃ l, p.sorted = .ok l ∧
          ∀ u v, Relation.TransGen (EStep p.graph.edges) u v → Before l u v) ∧
    (∀ (n : Nat) (new es : List GEdge), tryInsertAll [] new = some es →
        EdgesBelow es n →
        ∃ l, topoSortAux es n (List.range n) = .ok l ∧
          ∀ u v, Relation.TransGen (EStep es) u v → Before l u v) := by
  constructor
  · intro m p h
    obtain ⟨hacy, hbelow⟩ := parsePuppetManifest_ok_inv h
    obtain ⟨l, hl, hord⟩ := toposort_correct hacy hbelow
    refine ⟨l, ?_, hord⟩
    unfold Plan.sorted
    rw [hl]
  · intro n new es h hbelow
    exact toposort_correct (tryInsertAll_acyclic new [] es h acyclic_nil) hbelow

/-- Witness for C5: the empty manifest builds a plan whose sort succeeds,
and a concrete accepted two-edge sequence sorts with sources first. -/
theorem c5_witness :
    (∃ l, (Plan.mk ⟨[], []⟩).sorted = .ok l ∧
        ∀ u v, Relation.TransGen (EStep (Plan.mk ⟨[], []⟩).graph.edges) u v → Before l u v) ∧
    (∃ l, topoSortAux [(0, 1, Relation.provide), (1, 2, Relation.provide)] 3
          (List.range 3) = .ok l ∧
        ∀ u v, Relation.TransGen
          (EStep [(0, 1, Relation.provide), (1, 2, Relation.provide)]) u v → Before l u v) := by
  constructor
  · exact c5_toposort_succeeds_respects_paths.1 ⟨[]⟩ (Plan.mk ⟨[], []⟩) rfl
  · exact c5_toposort_succeeds_respects_paths.2 3
      [(0, 1, Relation.provide), (1, 2, Relation.provide)]
      [(0, 1, Relation.provide), (1, 2, Relation.provide)] rfl
      (by unfold EdgesBelow; decide)

/-- C6: operator mirroring in add_relations: a Require relation inserts
exactly the same edges as the mirrored Provide relation, and a Subscribe
relation exactly the same edges as the mirrored Notify relation, for all
reference lists and graph states. -/
theorem c6_operator_mirroring :
    ∀ (map : NodeMap) (es : List GEdge) (f t : List ResourceRef),
      addRelations map es (.relation f t .require)
          = addRelations map es (.relation t f .provide) ∧
      addRelations map es (.relation f t .subscribe)
          = addRelations map es (.relation t f .notify) :=
  fun _ _ _ _ => ⟨rfl, rfl⟩

/-! Reference validation: the second pass returns exactly the first
missing reference in scan order, and fails precisely when some relation
side mentions an undeclared resource. -/

lemma findUndefined_eq_find :
    ∀ (declared : List ResourceRef) (exprs : List PuppetExpr),
      findUndefined declared exprs
        = (scanRefs exprs).find? (fun r => ¬ declared.contains r) := by
  intro declared exprs
  induction exprs with
  | nil => rfl
  | cons e rest ih =>
      cases e with
      | resource rt ti ats =>
          show findUndefined declared rest = _
          rw [ih]
          congr 1
      | relation f t op =>
          show (match (f ++ t).find? (fun r => ¬ declared.contains r) with
            | some r => some r
            | none => findUndefined declared rest) = _
          have hscan : scanRefs (PuppetExpr.relation f t op :: rest)
              = (f ++ t) ++ scanRefs rest := rfl
          rw [hscan]
          conv_rhs => rw [List.find?_append]
          cases hfind : (f ++ t).find? (fun r => ¬ declared.contains r) with
          | some r => rfl
          | none => exact ih

lemma findUndefined_iff (declared : List ResourceRef) (exprs : List PuppetExpr) :
    (∃ r, findUndefined declared exprs = some r) ↔
      ∃ f t op, PuppetExpr.relation f t op ∈ exprs ∧ ∃ r ∈ f ++ t, r ∉ declared := by
  rw [show (∃ r, findUndefined declared exprs = some r) ↔
      ((scanRefs exprs).find? (fun r => ¬ declared.contains r)).isSome by
    rw [findUndefined_eq_find]
    exact Option.isSome_iff_exists.symm]
  rw [List.find?_isSome]
  constructor
  · rintro ⟨r, hr, hp⟩
    obtain ⟨e, he, hre⟩ := List.mem_flatMap.mp hr
    cases e with
    | resource rt ti ats => exact absurd hre (by simp)
    | relation f t op =>
        refine ⟨f, t, op, he, r, by simpa using hre, ?_⟩
        intro hmem
        have : ¬ (declared.contains r = true) := by simpa using hp
        exact this (by simpa [List.contains] using hmem)
  · rintro ⟨f, t, op, he, r, hrm, hrd⟩
    refine ⟨r, List.mem_flatMap.mpr ⟨PuppetExpr.relation f t op, he, by simpa using hrm⟩, ?_⟩
    simp only [decide_eq_true_eq]
    intro hc
    exact hrd (by simpa [List.contains] using hc)

/-- C4: after the statement loop has produced the expression list and the
declared-resource set, from_str fails with an undefined-reference error
naming r if and only if r is the first reference (scanning relations in
source order, from side then to side) absent from the declared set;
moreover such an error occurs precisely when at least one relation side
mentions an undeclared reference, with matching by structural equality on
the stored type name and title segments. -/
theorem c4_undefined_reference_iff :
    (∀ (declared : List ResourceRef) (exprs : List PuppetExpr),
        findUndefined declared exprs
          = (scanRefs exprs).find? (fun r => ¬ declared.contains r)) ∧
    (∀ (declared : List ResourceRef) (exprs : List PuppetExpr),
        (∃ r, findUndefined declared exprs = some r) ↔
          ∃ f t op, PuppetExpr.relation f t op ∈ exprs ∧ ∃ r ∈ f ++ t, r ∉ declared) ∧
    (∀ (stmts : List RawStmt) (exprs : List PuppetExpr) (declared : List ResourceRef),
        buildStmts stmts ([], []) = .ok (exprs, declared) →
        ∀ r, Manifest.fromStmts stmts = .err (.undefinedReference r) ↔
          (scanRefs exprs).find? (fun x => ¬ declared.contains x) = some r) := by
  refine ⟨findUndefined_eq_find, findUndefined_iff, ?_⟩
  intro stmts exprs declared hbuild r
  have hred : Manifest.fromStmts stmts
      = (match findUndefined declared exprs with
        | some r0 => RustResult.err (ManifestError.undefinedReference r0)
        | none => RustResult.ok ⟨exprs⟩) := by
    unfold Manifest.fromStmts
    rw [hbuild]
  rw [hred, findUndefined_eq_find declared exprs]
  cases hf : (scanRefs exprs).find? (fun x => ¬ declared.contains x) with
  | some r0 =>
      show RustResult.err (ManifestError.undefinedReference r0)
          = RustResult.err (ManifestError.undefinedReference r) ↔ some r0 = some r
      constructor
      · intro h
        injection h with h'
        injection h' with h''
        rw [h'']
      · intro h
        injection h with h'
        rw [h']
  | none =>
      show RustResult.ok (Manifest.mk exprs)
          = RustResult.err (ManifestError.undefinedReference r) ↔ none = some r
      constructor
      · intro h
        exact absurd h (by simp)
      · intro h
        exact absurd h (by simp)

/-- Witness for C4: a one-relation statement list whose reference is never
declared produces exactly the undefined-reference error naming it. -/
theorem c4_witness :
    Manifest.fromStmts
        [RawStmt.relation [RelItem.refArg (RawRefArg.single "File" (RawQuoted.double
            [RawPiece.plain "x"])), RelItem.relOp "->",
          RelItem.refArg (RawRefArg.single "File" (RawQuoted.double [RawPiece.plain "x"]))]]
      = .err (.undefinedReference ⟨"file", ⟨[.literal "x"]⟩⟩) ↔
    (scanRefs [PuppetExpr.relation [⟨"file", ⟨[.literal "x"]⟩⟩] [⟨"file", ⟨[.literal "x"]⟩⟩]
        .provide]).find? (fun x => ¬ ([] : List ResourceRef).contains x)
      = some ⟨"file", ⟨[.literal "x"]⟩⟩ :=
  c4_undefined_reference_iff.2.2
    [RawStmt.relation [RelItem.refArg (RawRefArg.single "File" (RawQuoted.double
        [RawPiece.plain "x"])), RelItem.relOp "->",
      RelItem.refArg (RawRefArg.single "File" (RawQuoted.double [RawPiece.plain "x"]))]]
    [PuppetExpr.relation [⟨"file", ⟨[.literal "x"]⟩⟩] [⟨"file", ⟨[.literal "x"]⟩⟩] .provide]
    [] (by decide) ⟨"file", ⟨[.literal "x"]⟩⟩

/-! Relation-chain decomposition. -/

lemma chainStep_refArg_on_empty (parts : List (List ResourceRef × String)) (g : RawRefArg) :
    chainStep (parts, []) (.refArg g) = (parts, groupRefs g) := by
  cases g with
  | single rt q => rfl
  | list refs => rfl

lemma chainFold_spec :
    ∀ (rest : List (String × RawRefArg)) (parts : List (List ResourceRef × String))
      (g : RawRefArg), groupRefs g ≠ [] → (∀ p ∈ rest, groupRefs p.2 ≠ []) →
      (let st := (rest.flatMap fun p => [RelItem.relOp p.1, RelItem.refArg p.2]).foldl
          chainStep (parts, groupRefs g)
       if st.2.isEmpty then st.1 else st.1 ++ [(st.2, "")]) = parts ++ expectedParts g rest := by
  intro rest
  induction rest with
  | nil =>
      intro parts g hg _
      simp only [List.flatMap_nil, List.foldl_nil]
      rw [if_neg (by simpa [List.isEmpty_iff] using hg)]
      rfl
  | cons p rest ih =>
      intro parts g hg hrest
      obtain ⟨op, g'⟩ := p
      simp only [List.flatMap_cons, List.cons_append, List.foldl_cons, List.nil_append]
      have h1 : chainStep (parts, groupRefs g) (RelItem.relOp op)
          = (parts ++ [(groupRefs g, op)], []) := by
        show (if (groupRefs g).isEmpty then (parts, groupRefs g)
          else (parts ++ [(groupRefs g, op)], [])) = _
        rw [if_neg (by simpa [List.isEmpty_iff] using hg)]
      rw [h1, chainStep_refArg_on_empty]
      have h2 := ih (parts ++ [(groupRefs g, op)]) g'
        (hrest (op, g') (List.mem_cons_self _ _))
        (fun q hq => hrest q (List.mem_cons_of_mem _ hq))
      have hr : parts ++ expectedParts g ((op, g') :: rest)
          = (parts ++ [(groupRefs g, op)]) ++ expectedParts g' rest := by
        simp [expectedParts]
      rw [hr]
      exact h2

lemma chainParts_chainItems {g0 : RawRefArg} {rest : List (String × RawRefArg)}
    (hg : groupRefs g0 ≠ []) (hrest : ∀ p ∈ rest, groupRefs p.2 ≠ []) :
    chainParts (chainItems g0 rest) = expectedParts g0 rest := by
  unfold chainParts chainItems
  simp only [List.foldl_cons]
  rw [chainStep_refArg_on_empty]
  have := chainFold_spec rest [] g0 hg hrest
  simpa using this

lemma emitRelations_expectedParts :
    ∀ (rest : List (String × RawRefArg)) (g : RawRefArg),
      (∀ p ∈ rest, p.1 = "->" ∨ p.1 = "<-" ∨ p.1 = "~>" ∨ p.1 = "<~") →
      emitRelations (expectedParts g rest) = .ok (expectedRels g rest) := by
  intro rest
  induction rest with
  | nil => intro g _; rfl
  | cons p rest ih =>
      intro g hops
      obtain ⟨op, g'⟩ := p
      have hop : op = "->" ∨ op = "<-" ∨ op = "~>" ∨ op = "<~" :=
        hops (op, g') (List.mem_cons_self _ _)
      have hopne : ¬ op = "" := by
        rcases hop with h | h | h | h <;> subst h <;> decide
      have hok : RelationOp.fromStr op = .ok (opValue op) := by
        rcases hop with h | h | h | h <;> subst h <;> rfl
      have hih := ih g' fun q hq => hops q (List.mem_cons_of_mem _ hq)
      cases rest with
      | nil =>
          show (if op = "" then _ else _) = _
          rw [if_neg hopne, hok]
          rfl
      | cons q rest' =>
          obtain ⟨op2, g2⟩ := q
          show (if op = "" then _ else _) = _
          rw [if_neg hopne, hok]
          rw [show expectedParts g' ((op2, g2) :: rest')
              = (groupRefs g', op2) :: expectedParts g2 rest' from rfl] at hih
          rw [hih]
          rfl

lemma expectedRels_length :
    ∀ (rest : List (String × RawRefArg)) (g : RawRefArg),
      (expectedRels g rest).length = rest.length := by
  intro rest
  induction rest with
  | nil => intro g; rfl
  | cons p rest ih =>
      intro g
      obtain ⟨op, g'⟩ := p
      show (expectedRels g' rest).length + 1 = rest.length + 1
      rw [ih g']

/-- C7: a chain of k reference-argument groups joined by k-1 operators
produces exactly k-1 Relation expressions, each pairing consecutive groups
and each retaining the operator written between that pair - never a merged
operator and never a transitive edge. -/
theorem c7_chain_decomposition :
    ∀ (g0 : RawRefArg) (rest : List (String × RawRefArg)),
      groupRefs g0 ≠ [] →
      (∀ p ∈ rest, groupRefs p.2 ≠ []) →
      (∀ p ∈ rest, p.1 = "->" ∨ p.1 = "<-" ∨ p.1 = "~>" ∨ p.1 = "<~") →
      emitRelations (chainParts (chainItems g0 rest)) = .ok (expectedRels g0 rest) ∧
        (expectedRels g0 rest).length = rest.length := by
  intro g0 rest hg hrest hops
  rw [chainParts_chainItems hg hrest]
  exact ⟨emitRelations_expectedParts rest g0 hops, expectedRels_length rest g0⟩

/-- Witness for C7: the chain A -> B ~> C yields exactly the two relations
(A to B, Provide) and (B to C, Notify). -/
theorem c7_witness :
    emitRelations (chainParts (chainItems
        (RawRefArg.single "File" (RawQuoted.double [RawPiece.plain "a"]))
        [("->", RawRefArg.single "File" (RawQuoted.double [RawPiece.plain "b"])),
         ("~>", RawRefArg.single "File" (RawQuoted.double [RawPiece.plain "c"]))]))
      = .ok (expectedRels
        (RawRefArg.single "File" (RawQuoted.double [RawPiece.plain "a"]))
        [("->", RawRefArg.single "File" (RawQuoted.double [RawPiece.plain "b"])),
         ("~>", RawRefArg.single "File" (RawQuoted.double [RawPiece.plain "c"]))]) ∧
      (expectedRels
        (RawRefArg.single "File" (RawQuoted.double [RawPiece.plain "a"]))
        [("->", RawRefArg.single "File" (RawQuoted.double [RawPiece.plain "b"])),
         ("~>", RawRefArg.single "File" (RawQuoted.double [RawPiece.plain "c"]))]).length = 2 :=
  c7_chain_decomposition
    (RawRefArg.single "File" (RawQuoted.double [RawPiece.plain "a"]))
    [("->", RawRefArg.single "File" (RawQuoted.double [RawPiece.plain "b"])),
     ("~>", RawRefArg.single "File" (RawQuoted.double [RawPiece.plain "c"]))]
    (by decide) (by decide) (by decide)

/-- C10: RelationOp::from_str returns Ok exactly on the four operator
strings; on any other string it panics through unreachable! and in
particular never returns the declared Err value, so it is not total at its
public interface. -/
theorem c10_fromstr_panics_on_unknown :
    ∀ s : String,
      ((s = "->" ∨ s = "<-" ∨ s = "~>" ∨ s = "<~") ↔ ∃ op, RelationOp.fromStr s = .ok op) ∧
      (∀ e, RelationOp.fromStr s ≠ .err e) ∧
      ((¬ s = "->" ∧ ¬ s = "<-" ∧ ¬ s = "~>" ∧ ¬ s = "<~") →
        ∃ msg, RelationOp.fromStr s = .panicked msg) := by
  intro s
  unfold RelationOp.fromStr
  split_ifs with h1 h2 h3 h4 <;>
    refine ⟨?_, ?_, ?_⟩ <;> simp_all

/-- Witness for C10: the arrow string parses, and a non-operator string
panics. -/
theorem c10_witness :
    (∃ op, RelationOp.fromStr "->" = .ok op) ∧
    (∃ msg, RelationOp.fromStr "x" = .panicked msg) :=
  ⟨(c10_fromstr_panics_on_unknown "->").1.mp (Or.inl rfl),
   (c10_fromstr_panics_on_unknown "x").2.2 (by refine ⟨?_, ?_, ?_, ?_⟩ <;> decide)⟩

/-! Concrete evaluations deciding the canonicalization claims and the
attribute and round-trip claims. -/

/-- C1 (evaluation at the failing input): the spec and the repository's own
test test_single_file_resource assert canonical type File and a one-node
plan for this input, but from_str stores the lowercased name file, the
canonical form would be File, and plan compilation aborts with an
unknown-rtype error, so no plan is produced at all. -/
theorem c1_code_eval :
    Manifest.fromStr "file \x7b \"/tmp/one\": \x7d"
        = .ok ⟨[.resource "file" ⟨[.literal "/tmp/one"]⟩ []]⟩ ∧
    parsePuppetManifest ⟨[.resource "file" ⟨[.literal "/tmp/one"]⟩ []]⟩
        = .error (.unknownRtype "file") ∧
    specCanonicalType "file" = "File" ∧ ("file" : String) ≠ "File" :=
  ⟨by decide, rfl, by decide, by decide⟩

/-- C2 (evaluation at the failing input): the declaration foo::bar is
stored as the lowercased name foo::bar rather than the canonical Foo::Bar
required by the section-3 invariant and by the repository's own tests; the
upper-cased reference is accepted (parsing succeeds with no
undefined-reference error) only because references are lowercased too, not
because of uc-first canonicalization. -/
theorem c2_code_eval :
    Manifest.fromStr "foo::bar \x7b \"x\": \x7d Foo::Bar[\"x\"] -> Foo::Bar[\"x\"]"
        = .ok ⟨[.resource "foo::bar" ⟨[.literal "x"]⟩ [],
            .relation [⟨"foo::bar", ⟨[.literal "x"]⟩⟩]
              [⟨"foo::bar", ⟨[.literal "x"]⟩⟩] .provide]⟩ ∧
    specCanonicalType "foo::bar" = "Foo::Bar" ∧
    ("foo::bar" : String) ≠ "Foo::Bar" :=
  ⟨by decide, by decide, by decide⟩

/-- C8 (evaluation at the failing input): a declaration with two
attributes parses to a Resource expression carrying only the last
attribute, because the attribute loop of from_str pushes a single
Attribute after iterating the attribute children; the two-attribute result
the claim requires is not produced. -/
theorem c8_code_eval :
    Manifest.fromStr "file \x7b \"/a\": mode => \"0644\", owner => \"root\", \x7d"
        = .ok ⟨[.resource "file" ⟨[.literal "/a"]⟩ [⟨"owner", ⟨[.literal "root"]⟩⟩]]⟩ ∧
    Manifest.fromStr "file \x7b \"/a\": mode => \"0644\", owner => \"root\", \x7d"
        ≠ .ok ⟨[.resource "file" ⟨[.literal "/a"]⟩
            [⟨"mode", ⟨[.literal "0644"]⟩⟩, ⟨"owner", ⟨[.literal "root"]⟩⟩]]⟩ :=
  ⟨by decide, by decide⟩

/-- Counterexample for C9: a manifest with one attribute parses, but its
display prints the attribute value without quotes, so re-parsing the
displayed text is a syntax error rather than an AST structurally equal to
the original. -/
theorem c9_counterexample :
    Manifest.fromStr "file \x7b \"/a\": mode => \"0644\", \x7d"
        = .ok ⟨[.resource "file" ⟨[.literal "/a"]⟩ [⟨"mode", ⟨[.literal "0644"]⟩⟩]]⟩ ∧
    Manifest.fromStr (Manifest.mk [.resource "file" ⟨[.literal "/a"]⟩
        [⟨"mode", ⟨[.literal "0644"]⟩⟩]]).render = .err .syntaxErr :=
  ⟨by decide, by decide⟩

/-! Round-trip machinery: the display of the restricted class re-parses to
the original abstract syntax.  First character-class facts and token-level
parsing lemmas. -/

lemma not_ws_of_alpha {c : Char} (h : c.isAlpha = true) : isWsChar c = false := by
  apply decide_eq_false
  rintro (rfl | rfl | rfl | rfl) <;> exact absurd h (by decide)

lemma ident_of_alpha {c : Char} (h : c.isAlpha = true) : isIdentChar c = true := by
  apply decide_eq_true
  exact Or.inl (by simp [Char.isAlphanum, h])

lemma takeWhile_all_append {p : Char → Bool} :
    ∀ (l1 l2 : List Char), (∀ c ∈ l1, p c = true) →
      (match l2 with | [] => True | c :: _ => p c = false) →
      (l1 ++ l2).takeWhile p = l1 ∧ (l1 ++ l2).dropWhile p = l2 := by
  intro l1
  induction l1 with
  | nil =>
      intro l2 _ h2
      cases l2 with
      | nil => exact ⟨rfl, rfl⟩
      | cons c t =>
          have h2' : p c = false := h2
          refine ⟨?_, ?_⟩
          · simp [List.takeWhile_cons, h2']
          · simp [List.dropWhile_cons, h2']
  | cons a l1 ih =>
      intro l2 h1 h2
      have ha : p a = true := h1 a (List.mem_cons_self _ _)
      have := ih l2 (fun c hc => h1 c (List.mem_cons_of_mem _ hc)) h2
      simp [List.takeWhile_cons, List.dropWhile_cons, ha, this.1, this.2]

lemma parseIdent_spec {c : Char} {cs' rest : List Char}
    (hc : c.isAlpha = true) (hcs : ∀ x ∈ cs', isIdentChar x = true)
    (hrest : match rest with | [] => True | x :: _ => isIdentChar x = false) :
    parseIdent (c :: (cs' ++ rest)) = some (String.mk (c :: cs'), rest) := by
  unfold parseIdent
  show (if c.isAlpha = true
      then some (String.mk (c :: (cs' ++ rest).takeWhile isIdentChar),
        (cs' ++ rest).dropWhile isIdentChar)
      else none) = some (String.mk (c :: cs'), rest)
  obtain ⟨ht, hd⟩ := takeWhile_all_append cs' rest hcs hrest
  rw [if_pos hc, ht, hd]

lemma parseTypeRest_stop {fuel : Nat} {acc : String} {cs : List Char}
    (hcs : ∀ r, cs ≠ ':' :: ':' :: r) :
    parseTypeRest fuel acc cs = some (acc, cs) := by
  cases fuel with
  | zero => rfl
  | succ fuel =>
      unfold parseTypeRest
      split
      · next rest => exact absurd rfl (hcs rest)
      · rfl

lemma parseTypeRest_good :
    ∀ (segs : List (List Char)) (acc : String) (fuel : Nat) (rest : List Char),
      (∀ seg ∈ segs, GoodSeg seg) →
      (remChars segs).length ≤ fuel →
      (match rest with | [] => True | x :: _ => isIdentChar x = false ∧ ¬ x = ':') →
      parseTypeRest fuel acc (remChars segs ++ rest)
        = some (String.mk (acc.data ++ remChars segs), rest) := by
  intro segs
  induction segs with
  | nil =>
      intro acc fuel rest _ _ hrest
      show parseTypeRest fuel acc ([] ++ rest) = some (String.mk (acc.data ++ []), rest)
      rw [List.nil_append, List.append_nil]
      rw [show String.mk acc.data = acc from rfl]
      apply parseTypeRest_stop
      intro r hr
      cases rest with
      | nil => exact absurd hr (by simp)
      | cons x xs =>
          have hx : ¬ x = ':' := hrest.2
          injection hr with h1 _
          exact hx h1
  | cons seg more ih =>
      intro acc fuel rest hgood hfuel hrest
      obtain ⟨c, cs', hseg, hc, hcs⟩ := hgood seg (List.mem_cons_self _ _)
      have hrem : remChars (seg :: more) = ':' :: ':' :: (seg ++ remChars more) := by
        simp [remChars]
      rw [hrem] at hfuel ⊢
      cases fuel with
      | zero => simp at hfuel
      | succ fuel =>
          have harg : (':' :: ':' :: (seg ++ remChars more)) ++ rest
              = ':' :: ':' :: (seg ++ (remChars more ++ rest)) := by
            simp [List.append_assoc]
          rw [harg]
          show (match parseIdent (seg ++ (remChars more ++ rest)) with
            | none => none
            | some (seg', rest') => parseTypeRest fuel (acc ++ "::" ++ seg') rest')
            = some (String.mk (acc.data ++ (':' :: ':' :: (seg ++ remChars more))), rest)
          have hid : parseIdent (seg ++ (remChars more ++ rest))
              = some (String.mk seg, remChars more ++ rest) := by
            subst hseg
            rw [List.cons_append]
            apply parseIdent_spec hc hcs
            cases more with
            | nil =>
                show (match ([] : List (List Char)).flatMap _ ++ rest with
                  | [] => True | x :: _ => isIdentChar x = false)
                cases rest with
                | nil => simp [remChars]
                | cons x xs =>
                    have := hrest
                    simp [remChars]
                    simp at this
                    exact this.1
            | cons seg2 more' =>
                have : remChars (seg2 :: more') ++ rest
                    = ':' :: (':' :: (seg2 ++ remChars more') ++ rest) := by
                  simp [remChars]
                rw [this]
                show isIdentChar ':' = false
                decide
          rw [hid]
          have hih := ih (acc ++ "::" ++ String.mk seg) fuel rest
            (fun sg hsg => hgood sg (List.mem_cons_of_mem _ hsg))
            (by simp at hfuel ⊢; omega) hrest
          show parseTypeRest fuel (acc ++ "::" ++ String.mk seg) (remChars more ++ rest)
              = some (String.mk (acc.data ++ (':' :: ':' :: (seg ++ remChars more))), rest)
          rw [hih]
          congr 2
          rw [String.data_append, String.data_append]
          have hcol : ("::" : String).data = [':', ':'] := rfl
          rw [hcol]
          rw [show (String.mk seg).data = seg from rfl]
          simp [List.append_assoc]

lemma parseTypeName_good {segs : List (List Char)} {rest : List Char}
    (hsegs : segs ≠ []) (hgood : ∀ seg ∈ segs, GoodSeg seg)
    (hrest : match rest with | [] => True | x :: _ => isIdentChar x = false ∧ ¬ x = ':') :
    parseTypeName (segsChars segs ++ rest) = some (String.mk (segsChars segs), rest) := by
  cases segs with
  | nil => exact absurd rfl hsegs
  | cons seg more =>
      obtain ⟨c, cs', hseg, hc, hcs⟩ := hgood seg (List.mem_cons_self _ _)
      have hchars : segsChars (seg :: more) = seg ++ remChars more := rfl
      rw [hchars]
      have harg : (seg ++ remChars more) ++ rest = seg ++ (remChars more ++ rest) := by
        simp [List.append_assoc]
      rw [harg]
      unfold parseTypeName
      have hid : parseIdent (seg ++ (remChars more ++ rest))
          = some (String.mk seg, remChars more ++ rest) := by
        subst hseg
        rw [List.cons_append]
        apply parseIdent_spec hc hcs
        cases more with
        | nil =>
            show (match ([] : List (List Char)).flatMap _ ++ rest with
              | [] => True | x :: _ => isIdentChar x = false)
            cases rest with
            | nil => simp [remChars]
            | cons x xs =>
                have := hrest
                simp [remChars]
                simp at this
                exact this.1
        | cons seg2 more' =>
            have : remChars (seg2 :: more') ++ rest
                = ':' :: (':' :: (seg2 ++ remChars more') ++ rest) := by
              simp [remChars]
            rw [this]
            show isIdentChar ':' = false
            decide
      rw [hid]
      have hrg := parseTypeRest_good more (String.mk seg) (remChars more ++ rest).length rest
        (fun sg hsg => hgood sg (List.mem_cons_of_mem _ hsg))
        (by simp) hrest
      show parseTypeRest (remChars more ++ rest).length (String.mk seg) (remChars more ++ rest)
          = some (String.mk (seg ++ remChars more), rest)
      rw [hrg]

lemma skipWs_cons_ws {c : Char} (h : isWsChar c = true) (cs : List Char) :
    skipWs (c :: cs) = skipWs cs := by
  simp [skipWs, List.dropWhile_cons, h]

lemma skipWs_cons_not {c : Char} (h : isWsChar c = false) (cs : List Char) :
    skipWs (c :: cs) = c :: cs := by
  simp [skipWs, List.dropWhile_cons, h]

lemma parseSingleQuoted_good {t rest : List Char} (ht : ∀ c ∈ t, ¬ c = quoteChar) :
    parseSingleQuoted (quoteChar :: (t ++ quoteChar :: rest))
      = some (.single (String.mk (quoteChar :: (t ++ [quoteChar]))), rest) := by
  unfold parseSingleQuoted
  show (if quoteChar = quoteChar then _ else none) = _
  rw [if_pos rfl]
  have hall : ∀ c ∈ t, (fun d => ¬ d = quoteChar : Char → Bool) c = true := by
    intro c hc
    exact decide_eq_true (ht c hc)
  have hstop : (match quoteChar :: rest with
      | [] => True
      | c :: _ => (fun d => ¬ d = quoteChar : Char → Bool) c = false) := by
    show (fun d => ¬ d = quoteChar : Char → Bool) quoteChar = false
    simp
  obtain ⟨htake, hdrop⟩ := takeWhile_all_append t (quoteChar :: rest) hall hstop
  rw [htake, hdrop]
  show (if quoteChar = quoteChar
      then some (RawQuoted.single (String.mk (quoteChar :: t ++ [quoteChar])), rest)
      else none) = _
  rw [if_pos rfl]
  rfl

lemma trimApostrophes_good {t : List Char} (ht : ∀ c ∈ t, ¬ c = quoteChar) :
    trimApostrophes (String.mk (quoteChar :: (t ++ [quoteChar]))) = String.mk t := by
  cases t with
  | nil => decide
  | cons c t' =>
      have hc : ¬ c = quoteChar := ht c (List.mem_cons_self _ _)
      have e1 : (quoteChar :: ((c :: t') ++ [quoteChar])).dropWhile (fun x => x = quoteChar)
          = c :: (t' ++ [quoteChar]) := by
        rw [List.dropWhile_cons, if_pos (by simp), List.cons_append, List.dropWhile_cons,
          if_neg (by simpa using hc)]
      have e2 : (c :: (t' ++ [quoteChar])).reverse = quoteChar :: (c :: t').reverse := by
        rw [show c :: (t' ++ [quoteChar]) = (c :: t') ++ [quoteChar] by simp]
        exact List.reverse_concat _ _
      have e3 : (quoteChar :: (c :: t').reverse).dropWhile (fun x => x = quoteChar)
          = (c :: t').reverse := by
        rw [List.dropWhile_cons, if_pos (by simp)]
        cases hrev : (c :: t').reverse with
        | nil => simp
        | cons d l' =>
            have hd : d ∈ c :: t' := by
              rw [← List.mem_reverse, hrev]
              exact List.mem_cons_self _ _
            rw [List.dropWhile_cons, if_neg (by simpa using ht d hd)]
      show String.mk ((((quoteChar :: ((c :: t') ++ [quoteChar])).dropWhile
          (fun x => x = quoteChar)).reverse.dropWhile (fun x => x = quoteChar)).reverse)
        = String.mk (c :: t')
      rw [e1, e2, e3, List.reverse_reverse]

lemma foldl_append_data :
    ∀ (l : List String) (a : String),
      (l.foldl (fun r s => r ++ s) a).data = a.data ++ l.flatMap String.data := by
  intro l
  induction l with
  | nil => intro a; simp
  | cons x xs ih =>
      intro a
      rw [List.foldl_cons, ih (a ++ x), String.data_append]
      simp

lemma string_join_data (l : List String) :
    (String.join l).data = l.flatMap String.data := by
  show (l.foldl (fun r s => r ++ s) "").data = l.flatMap String.data
  rw [foldl_append_data]
  rfl

lemma manifest_render_data (exprs : List PuppetExpr) :
    (Manifest.mk exprs).render.data
      = exprs.flatMap (fun e => e.render.data ++ ['\n']) := by
  show (String.join (exprs.map fun e => e.render ++ "\n")).data = _
  rw [string_join_data]
  induction exprs with
  | nil => rfl
  | cons e rest ih =>
      simp only [List.map_cons, List.flatMap_cons, ih, String.data_append]

lemma render_data_good (rt : String) (t : List Char) :
    (PuppetExpr.resource rt ⟨[.literal (String.mk t)]⟩ []).render.data
      = rt.data ++ (' ' :: lbraceChar :: '\n' :: ' ' :: ' ' :: quoteChar ::
          (t ++ (quoteChar :: ':' :: '\n' :: [rbraceChar]))) := by
  show ((rt ++ " \x7b\n  \x27" ++ PuppetString.render ⟨[.literal (String.mk t)]⟩
      ++ "\x27:\n" ++ String.join (([] : List Attribute).map fun a =>
        "    " ++ a.name ++ " => " ++ a.value.render ++ ",\n") ++ "\x7d")).data = _
  have hti : PuppetString.render ⟨[.literal (String.mk t)]⟩ = String.mk t := by
    show String.join [String.mk t] = String.mk t
    show ("" ++ String.mk t) = String.mk t
    cases ht : String.mk t
    rfl
  rw [hti]
  simp only [String.data_append, List.map_nil]
  simp [lbraceChar, rbraceChar, quoteChar, Char.ofNat]

lemma parseResourceTail_good (rt : String) {t suffix : List Char}
    (ht : ∀ c ∈ t, ¬ c = quoteChar) :
    parseResourceTail rt (lbraceChar :: '\n' :: ' ' :: ' ' :: quoteChar ::
        (t ++ (quoteChar :: ':' :: '\n' :: rbraceChar :: suffix)))
      = some (.resource rt (.single (String.mk (quoteChar :: (t ++ [quoteChar])))) none,
          suffix) := by
  unfold parseResourceTail
  show (if lbraceChar = lbraceChar then _ else none) = _
  rw [if_pos rfl]
  have hskip : skipWs ('\n' :: ' ' :: ' ' :: quoteChar ::
      (t ++ (quoteChar :: ':' :: '\n' :: rbraceChar :: suffix)))
      = quoteChar :: (t ++ (quoteChar :: ':' :: '\n' :: rbraceChar :: suffix)) := by
    rw [skipWs_cons_ws (by decide), skipWs_cons_ws (by decide), skipWs_cons_ws (by decide),
      skipWs_cons_not (by decide)]
  rw [hskip]
  have hq : parseQuotedTok (quoteChar :: (t ++ (quoteChar :: ':' :: '\n' :: rbraceChar :: suffix)))
      = some (.single (String.mk (quoteChar :: (t ++ [quoteChar]))),
          ':' :: '\n' :: rbraceChar :: suffix) := by
    unfold parseQuotedTok
    show (if quoteChar = quoteChar then
        parseSingleQuoted (quoteChar :: (t ++ (quoteChar :: ':' :: '\n' :: rbraceChar :: suffix)))
      else _) = _
    rw [if_pos rfl]
    have := @parseSingleQuoted_good t (':' :: '\n' :: rbraceChar :: suffix) ht
    rw [this]
  rw [hq]
  rfl

lemma parseStmt_good {segs : List (List Char)} {t suffix : List Char} (rt : String)
    (hsegs : segs ≠ []) (hgood : ∀ seg ∈ segs, GoodSeg seg)
    (hrt : rt.data = segsChars segs) (ht : ∀ c ∈ t, ¬ c = quoteChar) :
    parseStmt (rt.data ++ (' ' :: lbraceChar :: '\n' :: ' ' :: ' ' :: quoteChar ::
        (t ++ (quoteChar :: ':' :: '\n' :: rbraceChar :: suffix))))
      = some (.resource rt (.single (String.mk (quoteChar :: (t ++ [quoteChar])))) none,
          suffix) := by
  obtain ⟨seg, more, hsm⟩ : ∃ seg more, segs = seg :: more := by
    cases segs with
    | nil => exact absurd rfl hsegs
    | cons a b => exact ⟨a, b, rfl⟩
  obtain ⟨c, cs', hseg, hc, hcs⟩ := hgood seg (hsm ▸ List.mem_cons_self _ _)
  have hdata : rt.data = c :: (cs' ++ remChars more) := by
    rw [hrt, hsm]
    show seg ++ remChars more = _
    rw [hseg]
    rfl
  set tail := ' ' :: lbraceChar :: '\n' :: ' ' :: ' ' :: quoteChar ::
      (t ++ (quoteChar :: ':' :: '\n' :: rbraceChar :: suffix)) with htail
  have hwhole : rt.data ++ tail = c :: (cs' ++ remChars more ++ tail) := by
    rw [hdata]
    simp [List.append_assoc]
  rw [hwhole]
  unfold parseStmt
  have hcl : ¬ c = lbrackChar := by
    intro hcl
    rw [hcl] at hc
    exact absurd hc (by decide)
  simp only [hcl, if_false]
  have htn : parseTypeName (c :: (cs' ++ remChars more ++ tail)) = some (rt, tail) := by
    have harg : c :: (cs' ++ remChars more ++ tail) = segsChars segs ++ tail := by
      rw [hsm]
      show _ = (seg ++ remChars more) ++ tail
      rw [hseg]
      simp [List.append_assoc]
    rw [harg]
    have := @parseTypeName_good segs tail hsegs hgood
      (by rw [htail]; exact ⟨by decide, by decide⟩)
    rw [this]
    have : String.mk (segsChars segs) = rt := by
      rw [← hrt]
    rw [this]
  rw [htn]
  exact parseResourceTail_good rt ht

lemma parseProg_good :
    ∀ (exprs : List PuppetExpr) (fuel : Nat) (acc : List RawStmt),
      (∀ e ∈ exprs, GoodExprP e) →
      exprs.length + 1 ≤ fuel →
      parseProg fuel (exprs.flatMap (fun e => e.render.data ++ ['\n'])) acc
        = some (acc ++ exprs.map stmtOfGood) := by
  intro exprs
  induction exprs with
  | nil =>
      intro fuel acc _ hfuel
      cases fuel with
      | zero => omega
      | succ f =>
          show (match skipWs ([] : List Char) with
            | [] => some acc
            | cs' => match parseStmt cs' with
              | none => none
              | some (st, rest) => parseProg f rest (acc ++ [st])) = some (acc ++ [])
          rw [show skipWs ([] : List Char) = [] from rfl]
          simp
  | cons e rest ih =>
      intro fuel acc hgood hfuel
      cases e with
      | relation f1 t1 o1 => exact absurd (hgood _ (List.mem_cons_self _ _)) (fun h => h)
      | resource rt title attrs =>
          obtain ⟨hattrs, hlow, ⟨segs, hsegs, hgoodsegs, hrt⟩, ⟨t, htitle, ht⟩⟩ :=
            hgood _ (List.mem_cons_self _ _)
          subst hattrs
          subst htitle
          obtain ⟨seg, more, hsm⟩ : ∃ seg more, segs = seg :: more := by
            cases segs with
            | nil => exact absurd rfl hsegs
            | cons a b => exact ⟨a, b, rfl⟩
          obtain ⟨c, cs', hseg, hc, hcs⟩ := hgoodsegs seg (hsm ▸ List.mem_cons_self _ _)
          have hdata : rt.data = c :: (cs' ++ remChars more) := by
            rw [hrt, hsm]
            show seg ++ remChars more = _
            rw [hseg]
            rfl
          cases fuel with
          | zero => simp at hfuel
          | succ f =>
              have hflat : (PuppetExpr.resource rt ⟨[.literal (String.mk t)]⟩ [] :: rest).flatMap
                  (fun e => e.render.data ++ ['\n'])
                  = rt.data ++ (' ' :: lbraceChar :: '\n' :: ' ' :: ' ' :: quoteChar ::
                      (t ++ (quoteChar :: ':' :: '\n' :: rbraceChar ::
                        ('\n' :: rest.flatMap (fun e => e.render.data ++ ['\n']))))) := by
                rw [List.flatMap_cons, render_data_good]
                simp [List.append_assoc]
              rw [hflat]
              have hhead : rt.data ++ (' ' :: lbraceChar :: '\n' :: ' ' :: ' ' :: quoteChar ::
                  (t ++ (quoteChar :: ':' :: '\n' :: rbraceChar ::
                    ('\n' :: rest.flatMap (fun e => e.render.data ++ ['\n'])))))
                  = c :: ((cs' ++ remChars more) ++ (' ' :: lbraceChar :: '\n' :: ' ' :: ' ' ::
                      quoteChar :: (t ++ (quoteChar :: ':' :: '\n' :: rbraceChar ::
                        ('\n' :: rest.flatMap (fun e => e.render.data ++ ['\n'])))))) := by
                rw [hdata]
                simp [List.append_assoc]
              have hskip0 : skipWs (rt.data ++ (' ' :: lbraceChar :: '\n' :: ' ' :: ' ' ::
                  quoteChar :: (t ++ (quoteChar :: ':' :: '\n' :: rbraceChar ::
                    ('\n' :: rest.flatMap (fun e => e.render.data ++ ['\n']))))))
                  = rt.data ++ (' ' :: lbraceChar :: '\n' :: ' ' :: ' ' ::
                      quoteChar :: (t ++ (quoteChar :: ':' :: '\n' :: rbraceChar ::
                        ('\n' :: rest.flatMap (fun e => e.render.data ++ ['\n']))))) := by
                rw [hhead]
                exact skipWs_cons_not (not_ws_of_alpha hc) _
              show (match skipWs (rt.data ++ (' ' :: lbraceChar :: '\n' :: ' ' :: ' ' ::
                  quoteChar :: (t ++ (quoteChar :: ':' :: '\n' :: rbraceChar ::
                    ('\n' :: rest.flatMap (fun e => e.render.data ++ ['\n'])))))) with
                | [] => some acc
                | cs' => match parseStmt cs' with
                  | none => none
                  | some (st, r) => parseProg f r (acc ++ [st])) = _
              rw [hskip0, hhead]
              have hstmt := @parseStmt_good segs t
                ('\n' :: rest.flatMap (fun e => e.render.data ++ ['\n']))
                rt hsegs hgoodsegs hrt ht
              rw [hhead] at hstmt
              show (match parseStmt (c :: ((cs' ++ remChars more) ++ (' ' :: lbraceChar ::
                  '\n' :: ' ' :: ' ' :: quoteChar :: (t ++ (quoteChar :: ':' :: '\n' ::
                    rbraceChar :: ('\n' :: rest.flatMap (fun e => e.render.data ++ ['\n'])))))))
                with
                | none => none
                | some (st, r) => parseProg f r (acc ++ [st])) = _
              rw [hstmt]
              show parseProg f ('\n' :: rest.flatMap (fun e => e.render.data ++ ['\n']))
                  (acc ++ [.resource rt (.single (String.mk (quoteChar :: (t ++ [quoteChar]))))
                    none]) = _
              have hnl : parseProg f ('\n' :: rest.flatMap (fun e => e.render.data ++ ['\n']))
                  (acc ++ [.resource rt (.single (String.mk (quoteChar :: (t ++ [quoteChar]))))
                    none])
                  = parseProg f (rest.flatMap (fun e => e.render.data ++ ['\n']))
                    (acc ++ [.resource rt (.single (String.mk (quoteChar ::
                      (t ++ [quoteChar])))) none]) := by
                cases f with
                | zero => rfl
                | succ f' =>
                    show (match skipWs ('\n' :: rest.flatMap (fun e => e.render.data ++ ['\n']))
                      with
                      | [] => some _
                      | cs' => _) = _
                    rw [skipWs_cons_ws (by decide)]
                    rfl
              rw [hnl]
              have hih := ih f (acc ++ [.resource rt (.single (String.mk (quoteChar ::
                  (t ++ [quoteChar])))) none])
                (fun x hx => hgood x (List.mem_cons_of_mem _ hx)) (by simp at hfuel ⊢; omega)
              rw [hih]
              simp [stmtOfGood, titleChars]

lemma buildStmts_good :
    ∀ (exprs : List PuppetExpr) (acc : List PuppetExpr) (res : List ResourceRef),
      (∀ e ∈ exprs, GoodExprP e) →
      ∃ res', buildStmts (exprs.map stmtOfGood) (acc, res) = .ok (acc ++ exprs, res') := by
  intro exprs
  induction exprs with
  | nil =>
      intro acc res _
      exact ⟨res, by simp [buildStmts]⟩
  | cons e rest ih =>
      intro acc res hgood
      cases e with
      | relation f1 t1 o1 => exact absurd (hgood _ (List.mem_cons_self _ _)) (fun h => h)
      | resource rt title attrs =>
          obtain ⟨hattrs, hlow, hsegsP, ⟨t, htitle, ht⟩⟩ := hgood _ (List.mem_cons_self _ _)
          subst hattrs
          subst htitle
          have htval : parseQuotedString (.single (String.mk (quoteChar ::
              titleChars ⟨[.literal (String.mk t)]⟩ ++ [quoteChar])))
              = PuppetString.mk [.literal (String.mk t)] := by
            show PuppetString.mk [.literal (trimApostrophes (String.mk (quoteChar ::
              (t ++ [quoteChar]))))] = _
            rw [trimApostrophes_good ht]
          have hstep : buildStep (acc, res)
              (stmtOfGood (.resource rt ⟨[.literal (String.mk t)]⟩ []))
              = .ok (acc ++ [.resource rt ⟨[.literal (String.mk t)]⟩ []],
                  if res.contains ⟨rt, ⟨[.literal (String.mk t)]⟩⟩ then res
                  else res ++ [⟨rt, ⟨[.literal (String.mk t)]⟩⟩]) := by
            show buildStep (acc, res) (.resource rt (.single (String.mk (quoteChar ::
              titleChars ⟨[.literal (String.mk t)]⟩ ++ [quoteChar]))) none) = _
            unfold buildStep
            simp only [htval, hlow, buildAttributes]
          refine ?_
          have hmap : (PuppetExpr.resource rt ⟨[.literal (String.mk t)]⟩ [] :: rest).map
              stmtOfGood = stmtOfGood (.resource rt ⟨[.literal (String.mk t)]⟩ [])
                :: rest.map stmtOfGood := rfl
          rw [hmap]
          show ∃ res', (match buildStep (acc, res)
              (stmtOfGood (.resource rt ⟨[.literal (String.mk t)]⟩ [])) with
            | RustResult.panicked m => RustResult.panicked m
            | RustResult.err e => RustResult.err e
            | RustResult.ok st' => buildStmts (rest.map stmtOfGood) st') = _
          rw [hstep]
          obtain ⟨res', hres⟩ := ih (acc ++ [.resource rt ⟨[.literal (String.mk t)]⟩ []])
            (if res.contains ⟨rt, ⟨[.literal (String.mk t)]⟩⟩ then res
              else res ++ [⟨rt, ⟨[.literal (String.mk t)]⟩⟩])
            (fun x hx => hgood x (List.mem_cons_of_mem _ hx))
          refine ⟨res', ?_⟩
          show buildStmts (rest.map stmtOfGood) _ = _
          rw [hres]
          simp

lemma findUndefined_resources :
    ∀ (exprs : List PuppetExpr) (declared : List ResourceRef),
      (∀ e ∈ exprs, GoodExprP e) → findUndefined declared exprs = none := by
  intro exprs
  induction exprs with
  | nil => intro declared _; rfl
  | cons e rest ih =>
      intro declared hgood
      cases e with
      | relation f1 t1 o1 => exact absurd (hgood _ (List.mem_cons_self _ _)) (fun h => h)
      | resource rt title attrs =>
          show findUndefined declared rest = none
          exact ih declared (fun x hx => hgood x (List.mem_cons_of_mem _ hx))

lemma flatMap_blocks_length (exprs : List PuppetExpr) :
    exprs.length ≤ (exprs.flatMap (fun e => e.render.data ++ ['\n'])).length := by
  induction exprs with
  | nil => simp
  | cons e rest ih =>
      simp only [List.flatMap_cons, List.length_cons, List.length_append]
      simp at ih ⊢
      omega

/-- C9 (amended): round-trip display holds on the restricted class the
code actually supports: for every manifest whose expressions are all
attribute-free resource declarations with lowercase well-formed type names
and single-literal apostrophe-free titles, re-parsing the display yields
exactly the original manifest.  (With attributes the display is not even
re-parseable, with variable titles it changes the AST, and relation
expressions render with lowercased reference types the grammar rejects.) -/
theorem c9_amended_roundtrip :
    ∀ m : Manifest, (∀ e ∈ m.exprs, GoodExprP e) →
      Manifest.fromStr m.render = .ok m := by
  intro m hgood
  obtain ⟨exprs⟩ := m
  have hgood' : ∀ e ∈ exprs, GoodExprP e := hgood
  unfold Manifest.fromStr
  have hparse : parseProgram (Manifest.mk exprs).render = some (exprs.map stmtOfGood) := by
    unfold parseProgram
    rw [manifest_render_data exprs]
    have hlen := flatMap_blocks_length exprs
    have := parseProg_good exprs ((exprs.flatMap (fun e => e.render.data ++ ['\n'])).length + 1)
      [] hgood' (by omega)
    simpa using this
  rw [hparse]
  show Manifest.fromStmts (exprs.map stmtOfGood) = RustResult.ok (Manifest.mk exprs)
  unfold Manifest.fromStmts
  obtain ⟨res', hb⟩ := buildStmts_good exprs [] [] hgood'
  rw [show ([] : List PuppetExpr) ++ exprs = exprs from by simp] at hb
  rw [hb]
  show (match findUndefined res' exprs with
    | some r => RustResult.err (ManifestError.undefinedReference r)
    | none => RustResult.ok (Manifest.mk exprs)) = RustResult.ok (Manifest.mk exprs)
  rw [findUndefined_resources exprs res' hgood']

/-- Witness for the amended C9: a concrete attribute-free file declaration
round-trips exactly. -/
theorem c9_amended_witness :
    Manifest.fromStr (Manifest.mk [.resource "file" ⟨[.literal "/tmp/one"]⟩ []]).render
      = .ok ⟨[.resource "file" ⟨[.literal "/tmp/one"]⟩ []]⟩ := by
  apply c9_amended_roundtrip
  intro e he
  have : e = PuppetExpr.resource "file" ⟨[.literal "/tmp/one"]⟩ [] := by
    simpa using he
  subst this
  refine ⟨rfl, by decide, ⟨[['f', 'i', 'l', 'e']], by simp, ?_, by decide⟩,
    ⟨"/tmp/one".data, rfl, by decide⟩⟩
  intro seg hseg
  have : seg = ['f', 'i', 'l', 'e'] := by simpa using hseg
  subst this
  exact ⟨'f', ['i', 'l', 'e'], rfl, by decide, by decide⟩

end Dolly
